import Mathlib

/-!
Shallow embedding of config.go from the linuxkernel Go package.

Go strings are modelled as lists of characters (Str).  For the data this
code handles, Go's byte-wise string operations coincide with the
character-wise operations used here: UTF-8 preserves code-point order under
byte-wise comparison, so Go's byte-lexicographic string order is exactly the
character-lexicographic order ltStr below, and the ASCII literals involved
("CONFIG_", "=", " is not set", ...) are one byte per character.

Go's map[string]string is modelled as an association list of key/value
pairs.  Config.Canonical (keys strictly sorted, hence duplicate-free)
expresses that a list represents a finite map; iteration over the map is
iteration over the list.  Go's map iteration order is unspecified, but every
sequence DiffConfig produces is sorted before being returned and has
pairwise distinct keys, so any iteration order yields the same value; the
list order is one such iteration order.  Go's sort.Slice is an unspecified
comparison sort; on sequences with pairwise distinct keys every comparison
sort produces the same result, and sortBy below (insertion sort) is the one
used here.
-/

abbrev Str := List Char

/-- Go string comparison a < b: lexicographic order (byte-wise in Go,
character-wise here; identical for UTF-8 data). -/
def ltStr : Str → Str → Bool
  | [], [] => false
  | [], _ :: _ => true
  | _ :: _, [] => false
  | a :: as, b :: bs => if a < b then true else if b < a then false else ltStr as bs

/-- The non-strict order induced by ltStr. -/
def leStr (a b : Str) : Bool := !ltStr b a

theorem ltStr_irrefl (a : Str) : ltStr a a = false := by
  induction a with
  | nil => rfl
  | cons c cs ih => simp [ltStr, ih]

theorem ltStr_trans {a b c : Str} (h1 : ltStr a b = true) (h2 : ltStr b c = true) :
    ltStr a c = true := by
  induction a generalizing b c with
  | nil =>
    cases b with
    | nil => simp [ltStr] at h1
    | cons y ys =>
      cases c with
      | nil => simp [ltStr] at h2
      | cons z zs => rfl
  | cons x xs ih =>
    cases b with
    | nil => simp [ltStr] at h1
    | cons y ys =>
      cases c with
      | nil => simp [ltStr] at h2
      | cons z zs =>
        simp only [ltStr] at h1 h2 ⊢
        by_cases hxy : x < y
        · by_cases hyz : y < z
          · simp [lt_trans hxy hyz]
          · by_cases hzy : z < y
            · simp [hyz, hzy] at h2
            · have hyzeq : y = z := le_antisymm (not_lt.mp hzy) (not_lt.mp hyz)
              subst hyzeq
              simp [hxy]
        · by_cases hyx : y < x
          · simp [hxy, hyx] at h1
          · have hxyeq : x = y := le_antisymm (not_lt.mp hyx) (not_lt.mp hxy)
            subst hxyeq
            by_cases hyz : x < z
            · simp [hyz]
            · by_cases hzy : z < x
              · simp [hyz, hzy] at h2
              · have : x = z := le_antisymm (not_lt.mp hzy) (not_lt.mp hyz)
                subst this
                simp only [hxy, if_neg (lt_irrefl x)] at h1 h2 ⊢
                exact ih h1 h2

theorem ltStr_asymm {a b : Str} (h : ltStr a b = true) : ltStr b a = false := by
  induction a generalizing b with
  | nil =>
    cases b with
    | nil => simp [ltStr] at h
    | cons y ys => rfl
  | cons x xs ih =>
    cases b with
    | nil => simp [ltStr] at h
    | cons y ys =>
      simp only [ltStr] at h ⊢
      by_cases hxy : x < y
      · simp [hxy, asymm hxy, lt_asymm hxy]
      · by_cases hyx : y < x
        · simp [hxy, hyx] at h
        · have : x = y := le_antisymm (not_lt.mp hyx) (not_lt.mp hxy)
          subst this
          simp only [if_neg (lt_irrefl x)] at h ⊢
          exact ih h

theorem eq_of_not_ltStr {a b : Str} (h1 : ltStr a b = false) (h2 : ltStr b a = false) :
    a = b := by
  induction a generalizing b with
  | nil =>
    cases b with
    | nil => rfl
    | cons y ys => simp [ltStr] at h1
  | cons x xs ih =>
    cases b with
    | nil => simp [ltStr] at h2
    | cons y ys =>
      simp only [ltStr] at h1 h2
      by_cases hxy : x < y
      · simp [hxy] at h1
      · by_cases hyx : y < x
        · simp [hyx, lt_asymm hyx] at h2
        · have hxyeq : x = y := le_antisymm (not_lt.mp hyx) (not_lt.mp hxy)
          subst hxyeq
          simp only [if_neg (lt_irrefl x)] at h1 h2
          rw [ih h1 h2]

theorem leStr_of_ltStr {a b : Str} (h : ltStr a b = true) : leStr a b = true := by
  simp [leStr, ltStr_asymm h]

theorem leStr_refl (a : Str) : leStr a a = true := by
  simp [leStr, ltStr_irrefl]

theorem ltStr_of_leStr_of_ne {a b : Str} (h : leStr a b = true) (hne : a ≠ b) :
    ltStr a b = true := by
  simp only [leStr, Bool.not_eq_true'] at h
  by_cases hab : ltStr a b = true
  · exact hab
  · exact absurd (eq_of_not_ltStr (Bool.not_eq_true _ ▸ hab) h) hne

theorem leStr_trans {a b c : Str} (h1 : leStr a b = true) (h2 : leStr b c = true) :
    leStr a c = true := by
  by_cases hab : a = b
  · subst hab; exact h2
  · by_cases hbc : b = c
    · subst hbc; exact h1
    · exact leStr_of_ltStr
        (ltStr_trans (ltStr_of_leStr_of_ne h1 hab) (ltStr_of_leStr_of_ne h2 hbc))

theorem leStr_total (a b : Str) : leStr a b = true ∨ leStr b a = true := by
  by_cases h : ltStr b a = true
  · exact Or.inr (leStr_of_ltStr h)
  · exact Or.inl (by simp [leStr, h])

/-! ### A comparison sort standing in for Go's sort.Slice -/

/-- Insert an element into a le-sorted list, keeping it sorted. -/
def insertSorted (le : α → α → Bool) (a : α) : List α → List α
  | [] => [a]
  | b :: t => if le a b then a :: b :: t else b :: insertSorted le a t

/-- Insertion sort.  Stands in for Go's sort.Slice (see the header note). -/
def sortBy (le : α → α → Bool) (l : List α) : List α :=
  l.foldr (insertSorted le) []

theorem mem_insertSorted (le : α → α → Bool) (a x : α) (l : List α) :
    x ∈ insertSorted le a l ↔ x = a ∨ x ∈ l := by
  induction l with
  | nil => simp [insertSorted]
  | cons b t ih =>
    by_cases h : le a b = true
    · simp [insertSorted, h]
    · simp only [insertSorted, if_neg h, List.mem_cons, ih]
      tauto

theorem mem_sortBy (le : α → α → Bool) (x : α) (l : List α) :
    x ∈ sortBy le l ↔ x ∈ l := by
  induction l with
  | nil => simp [sortBy]
  | cons b t ih =>
    simp only [sortBy, List.foldr_cons, mem_insertSorted, List.mem_cons]
    rw [show t.foldr (insertSorted le) [] = sortBy le t from rfl, ih]

theorem pairwise_insertSorted (le : α → α → Bool)
    (htrans : ∀ x y z, le x y = true → le y z = true → le x z = true)
    (htotal : ∀ x y, le x y = true ∨ le y x = true)
    (a : α) (l : List α) (h : l.Pairwise (fun x y => le x y = true)) :
    (insertSorted le a l).Pairwise (fun x y => le x y = true) := by
  induction l with
  | nil => simp [insertSorted]
  | cons b t ih =>
    rcases List.pairwise_cons.mp h with ⟨hb, ht⟩
    by_cases hab : le a b = true
    · rw [show insertSorted le a (b :: t) = a :: b :: t by simp [insertSorted, hab]]
      refine List.pairwise_cons.mpr ⟨?_, h⟩
      intro x hx
      rcases List.mem_cons.mp hx with rfl | hx'
      · exact hab
      · exact htrans a b x hab (hb x hx')
    · have hba : le b a = true := (htotal a b).resolve_left hab
      rw [show insertSorted le a (b :: t) = b :: insertSorted le a t by
        simp [insertSorted, hab]]
      refine List.pairwise_cons.mpr ⟨?_, ih ht⟩
      intro x hx
      rcases (mem_insertSorted le a x t).mp hx with rfl | hx'
      · exact hba
      · exact hb x hx'

theorem pairwise_sortBy (le : α → α → Bool)
    (htrans : ∀ x y z, le x y = true → le y z = true → le x z = true)
    (htotal : ∀ x y, le x y = true ∨ le y x = true)
    (l : List α) : (sortBy le l).Pairwise (fun x y => le x y = true) := by
  induction l with
  | nil => simp [sortBy]
  | cons b t ih => exact pairwise_insertSorted le htrans htotal b _ ih

theorem sortBy_eq_self (le : α → α → Bool) (l : List α)
    (h : l.Pairwise (fun x y => le x y = true)) : sortBy le l = l := by
  induction l with
  | nil => rfl
  | cons b t ih =>
    rcases List.pairwise_cons.mp h with ⟨hb, ht⟩
    have : sortBy le (b :: t) = insertSorted le b (sortBy le t) := rfl
    rw [this, ih ht]
    cases t with
    | nil => rfl
    | cons c u => simp [insertSorted, hb c (by simp)]

/-- Two lists that are strictly sorted on the same key and have the same
elements are equal. -/
theorem eq_of_sorted_mem_iff (key : α → Str) {l₁ l₂ : List α}
    (h₁ : l₁.Pairwise (fun x y => ltStr (key x) (key y) = true))
    (h₂ : l₂.Pairwise (fun x y => ltStr (key x) (key y) = true))
    (hmem : ∀ x, x ∈ l₁ ↔ x ∈ l₂) : l₁ = l₂ := by
  induction l₁ generalizing l₂ with
  | nil =>
    cases l₂ with
    | nil => rfl
    | cons b t => exact absurd ((hmem b).mpr (by simp)) (by simp)
  | cons a t₁ ih =>
    cases l₂ with
    | nil => exact absurd ((hmem a).mp (by simp)) (by simp)
    | cons b t₂ =>
      rcases List.pairwise_cons.mp h₁ with ⟨ha, ht₁⟩
      rcases List.pairwise_cons.mp h₂ with ⟨hb, ht₂⟩
      have hab : a = b := by
        rcases List.mem_cons.mp ((hmem a).mp (by simp)) with h | h
        · exact h
        · rcases List.mem_cons.mp ((hmem b).mpr (by simp)) with h' | h'
          · exact h'.symm
          · exact absurd (ltStr_asymm (hb a h)) (by simp [ha b h'])
      subst hab
      have htails : ∀ x, x ∈ t₁ ↔ x ∈ t₂ := by
        intro x
        constructor
        · intro hx
          rcases List.mem_cons.mp ((hmem x).mp (List.mem_cons_of_mem a hx)) with h | h
          · subst h; exact absurd (ha x hx) (by simp [ltStr_irrefl])
          · exact h
        · intro hx
          rcases List.mem_cons.mp ((hmem x).mpr (List.mem_cons_of_mem a hx)) with h | h
          · subst h; exact absurd (hb x hx) (by simp [ltStr_irrefl])
          · exact h
      rw [ih ht₁ ht₂ htails]

/-! ### Primitives from Go's strings package, on Str -/

/-- strings.HasPrefix s p. -/
def hasPrefixStr (s p : Str) : Bool := p.isPrefixOf s

/-- strings.TrimPrefix s p. -/
def trimPrefixStr (s p : Str) : Str := if p.isPrefixOf s then s.drop p.length else s

/-- strings.HasSuffix s p. -/
def hasSuffixStr (s p : Str) : Bool := p.isSuffixOf s

/-- strings.TrimSuffix s p. -/
def trimSuffixStr (s p : Str) : Str :=
  if p.isSuffixOf s then s.take (s.length - p.length) else s

/-- Go's unicode.IsSpace: the Unicode White_Space property, i.e. Go's
unicode.White_Space table (0x09-0x0D, space, NEL 0x85, NBSP 0xA0, 0x1680,
0x2000-0x200A, 0x2028, 0x2029, 0x202F, 0x205F, 0x3000). -/
def goIsSpace (c : Char) : Bool :=
  c.toNat == 0x09 || c.toNat == 0x0A || c.toNat == 0x0B || c.toNat == 0x0C ||
  c.toNat == 0x0D || c.toNat == 0x20 || c.toNat == 0x85 || c.toNat == 0xA0 ||
  c.toNat == 0x1680 ||
  (decide (0x2000 ≤ c.toNat) && decide (c.toNat ≤ 0x200A)) ||
  c.toNat == 0x2028 || c.toNat == 0x2029 || c.toNat == 0x202F ||
  c.toNat == 0x205F || c.toNat == 0x3000

/-- strings.TrimSpace (unicode.IsSpace white space, i.e. goIsSpace). -/
def trimSpace (s : Str) : Str :=
  ((s.dropWhile goIsSpace).reverse.dropWhile goIsSpace).reverse

/-- strings.Split s sep for a one-character separator sep. -/
def splitOnChar (c : Char) : Str → List Str
  | [] => [[]]
  | a :: rest =>
    if a = c then [] :: splitOnChar c rest
    else
      match splitOnChar c rest with
      | t :: ts => (a :: t) :: ts
      | [] => [[a]]

theorem splitOnChar_ne_nil (c : Char) (s : Str) : splitOnChar c s ≠ [] := by
  cases s with
  | nil => simp [splitOnChar]
  | cons a rest =>
    by_cases h : a = c
    · simp [splitOnChar, h]
    · simp only [splitOnChar, if_neg h]
      cases splitOnChar c rest <;> simp

/-! ### The configuration model: Go's map[string]string -/

abbrev Config := List (Str × Str)

/-- Map lookup cfg[k]. -/
def Config.lookup : Config → Str → Option Str
  | [], _ => none
  | kv :: rest, k => if k = kv.1 then some kv.2 else Config.lookup rest k

/-- Map assignment cfg[k] = v, keeping the canonical (key-sorted)
representation. -/
def Config.insert : Config → Str → Str → Config
  | [], k, v => [(k, v)]
  | kv :: rest, k, v =>
    if ltStr k kv.1 then (k, v) :: kv :: rest
    else if k = kv.1 then (k, v) :: rest
    else kv :: Config.insert rest k v

/-- Map deletion delete(cfg, k). -/
def Config.erase (cfg : Config) (k : Str) : Config :=
  cfg.filter (fun kv => decide (kv.1 ≠ k))

/-- The association list faithfully represents a Go map: its keys are
strictly sorted, hence pairwise distinct. -/
def Config.Canonical (cfg : Config) : Prop :=
  cfg.Pairwise (fun a b => ltStr a.1 b.1 = true)

instance (cfg : Config) : Decidable (Config.Canonical cfg) :=
  inferInstanceAs (Decidable (cfg.Pairwise (fun a b : Str × Str => ltStr a.1 b.1 = true)))

theorem lookup_insert (cfg : Config) (k v k' : Str) :
    Config.lookup (Config.insert cfg k v) k' =
      if k' = k then some v else Config.lookup cfg k' := by
  induction cfg with
  | nil => simp [Config.insert, Config.lookup]
  | cons kv rest ih =>
    by_cases h1 : ltStr k kv.1 = true
    · rw [show Config.insert (kv :: rest) k v = (k, v) :: kv :: rest by
        simp [Config.insert, h1]]
      simp [Config.lookup]
    · by_cases h2 : k = kv.1
      · rw [show Config.insert (kv :: rest) k v = (k, v) :: rest by
          simp [Config.insert, h1, h2, ltStr_irrefl]]
        by_cases h3 : k' = k
        · simp [Config.lookup, h3]
        · simp [Config.lookup, h3, h2 ▸ h3]
      · rw [show Config.insert (kv :: rest) k v = kv :: Config.insert rest k v by
          simp [Config.insert, h1, h2]]
        by_cases h3 : k' = kv.1
        · have h4 : ¬(k' = k) := fun h => h2 (h ▸ h3)
          have h5 : ¬(kv.1 = k) := fun h => h2 h.symm
          simp [Config.lookup, h3, h4, h5]
        · simp [Config.lookup, h3, ih]

theorem lookup_erase (cfg : Config) (k k' : Str) :
    Config.lookup (Config.erase cfg k) k' =
      if k' = k then none else Config.lookup cfg k' := by
  induction cfg with
  | nil => simp [Config.erase, Config.lookup]
  | cons kv rest ih =>
    by_cases h1 : kv.1 = k
    · rw [show Config.erase (kv :: rest) k = Config.erase rest k by
        simp [Config.erase, List.filter, h1]]
      rw [ih]
      by_cases h3 : k' = k
      · simp [h3]
      · simp [h3, Config.lookup, h1 ▸ h3]
    · rw [show Config.erase (kv :: rest) k = kv :: Config.erase rest k by
        simp [Config.erase, List.filter, h1]]
      by_cases h3 : k' = kv.1
      · have h4 : ¬(k' = k) := fun h => h1 (h3 ▸ h)
        simp [Config.lookup, h3, h4, h1]
      · simp [Config.lookup, h3, ih]

theorem mem_insert {cfg : Config} {k v : Str} {x : Str × Str}
    (h : x ∈ Config.insert cfg k v) : x = (k, v) ∨ x ∈ cfg := by
  induction cfg with
  | nil => simpa [Config.insert] using h
  | cons kv rest ih =>
    by_cases h1 : ltStr k kv.1 = true
    · rw [show Config.insert (kv :: rest) k v = (k, v) :: kv :: rest by
        simp [Config.insert, h1]] at h
      simpa using h
    · by_cases h2 : k = kv.1
      · rw [show Config.insert (kv :: rest) k v = (k, v) :: rest by
          simp [Config.insert, h1, h2, ltStr_irrefl]] at h
        rcases List.mem_cons.mp h with h | h
        · exact Or.inl h
        · exact Or.inr (List.mem_cons_of_mem _ h)
      · rw [show Config.insert (kv :: rest) k v = kv :: Config.insert rest k v by
          simp [Config.insert, h1, h2]] at h
        rcases List.mem_cons.mp h with h | h
        · exact Or.inr (h ▸ List.mem_cons_self kv rest)
        · rcases ih h with h | h
          · exact Or.inl h
          · exact Or.inr (List.mem_cons_of_mem _ h)

theorem insert_canonical {cfg : Config} (hc : Config.Canonical cfg) (k v : Str) :
    Config.Canonical (Config.insert cfg k v) := by
  induction cfg with
  | nil => simp [Config.insert, Config.Canonical]
  | cons kv rest ih =>
    rcases List.pairwise_cons.mp hc with ⟨hv, hr⟩
    by_cases h1 : ltStr k kv.1 = true
    · rw [show Config.insert (kv :: rest) k v = (k, v) :: kv :: rest by
        simp [Config.insert, h1]]
      refine List.pairwise_cons.mpr ⟨?_, hc⟩
      intro x hx
      rcases List.mem_cons.mp hx with rfl | hx'
      · exact h1
      · exact ltStr_trans h1 (hv x hx')
    · by_cases h2 : k = kv.1
      · rw [show Config.insert (kv :: rest) k v = (k, v) :: rest by
          simp [Config.insert, h1, h2, ltStr_irrefl]]
        exact List.pairwise_cons.mpr ⟨fun x hx => h2 ▸ hv x hx, hr⟩
      · rw [show Config.insert (kv :: rest) k v = kv :: Config.insert rest k v by
          simp [Config.insert, h1, h2]]
        have hlt : ltStr kv.1 k = true := by
          by_cases h : ltStr kv.1 k = true
          · exact h
          · have h1' : ltStr k kv.1 = false := by simpa using h1
            have h' : ltStr kv.1 k = false := by simpa using h
            exact absurd (eq_of_not_ltStr h1' h') h2
        refine List.pairwise_cons.mpr ⟨?_, ih hr⟩
        intro x hx
        rcases mem_insert hx with rfl | hx'
        · exact hlt
        · exact hv x hx'

theorem erase_canonical {cfg : Config} (hc : Config.Canonical cfg) (k : Str) :
    Config.Canonical (Config.erase cfg k) :=
  hc.sublist (List.filter_sublist cfg)

theorem lookup_eq_some_of_mem {cfg : Config} (hc : Config.Canonical cfg)
    {k v : Str} (h : (k, v) ∈ cfg) : Config.lookup cfg k = some v := by
  induction cfg with
  | nil => simp at h
  | cons kv rest ih =>
    rcases List.pairwise_cons.mp hc with ⟨hv, hr⟩
    rcases List.mem_cons.mp h with h | h
    · simp [Config.lookup, ← h]
    · have hne : k ≠ kv.1 := by
        intro he
        have := hv _ h
        rw [← he] at this
        simp [ltStr_irrefl] at this
      simp [Config.lookup, hne, ih hr h]

theorem mem_of_lookup_eq_some {cfg : Config} {k v : Str}
    (h : Config.lookup cfg k = some v) : (k, v) ∈ cfg := by
  induction cfg with
  | nil => simp [Config.lookup] at h
  | cons kv rest ih =>
    by_cases h1 : k = kv.1
    · simp only [Config.lookup, if_pos h1, Option.some.injEq] at h
      exact List.mem_cons.mpr (Or.inl (by rw [h1, ← h]))
    · simp only [Config.lookup, if_neg h1] at h
      exact List.mem_cons_of_mem _ (ih h)

theorem lookup_eq_none_iff {cfg : Config} {k : Str} :
    Config.lookup cfg k = none ↔ ∀ v, (k, v) ∉ cfg := by
  constructor
  · intro h v hv
    induction cfg with
    | nil => simp at hv
    | cons kv rest ih =>
      rcases List.mem_cons.mp hv with h' | h'
      · rw [← h'] at h
        simp [Config.lookup] at h
      · by_cases h1 : k = kv.1
        · simp [Config.lookup, h1] at h
        · simp only [Config.lookup, if_neg h1] at h
          exact ih h h'
  · intro h
    cases hl : Config.lookup cfg k with
    | none => rfl
    | some v => exact absurd (mem_of_lookup_eq_some hl) (h v)

/-- Two canonical configurations with the same lookup function are equal. -/
theorem Config.ext {c₁ c₂ : Config} (h₁ : Config.Canonical c₁)
    (h₂ : Config.Canonical c₂)
    (h : ∀ k, Config.lookup c₁ k = Config.lookup c₂ k) : c₁ = c₂ := by
  have h₁' : c₁.Pairwise (fun a b : Str × Str => ltStr a.1 b.1 = true) := h₁
  have h₂' : c₂.Pairwise (fun a b : Str × Str => ltStr a.1 b.1 = true) := h₂
  refine eq_of_sorted_mem_iff (fun kv : Str × Str => kv.1) h₁' h₂' ?_
  rintro ⟨k, v⟩
  constructor
  · intro hm
    exact mem_of_lookup_eq_some ((h k) ▸ lookup_eq_some_of_mem h₁ hm)
  · intro hm
    exact mem_of_lookup_eq_some ((h k) ▸ lookup_eq_some_of_mem h₂ hm)

/-! ### The configuration parser -/

/-- parseConfigLine from config.go.  The result none models the Go panic
(index out of range on tokens[1]) that occurs when a line starts with
CONFIG_ after trimming but contains no '='; in every other case the Go
function returns normally and so does this one. -/
def parseConfigLine (line0 : Str) : Option (Str × Str) :=
  let line1 := trimSpace line0
  if hasPrefixStr line1 "CONFIG_".toList then
    match splitOnChar '=' (trimPrefixStr line1 "CONFIG_".toList) with
    | t0 :: t1 :: _ => some (t0, t1)
    | _ => none
  else if hasSuffixStr line1 " is not set".toList then
    some (trimPrefixStr (trimSuffixStr line1 " is not set".toList) "# CONFIG_".toList,
      "n".toList)
  else some ([], [])

/-- One iteration of the ParseConfig loop: parse the line and record the
pair when the option is nonempty (none propagates the parseConfigLine
panic). -/
def parseStep (cfg : Config) (l : Str) : Option Config :=
  (parseConfigLine l).map
    (fun pv => if pv.1 = [] then cfg else Config.insert cfg pv.1 pv.2)

/-- ParseConfig from config.go.  The input is the list of lines produced by
the bufio.Scanner (each line without its trailing newline); the read-error
path of the scanner does not exist for in-memory input. -/
def ParseConfig (lines : List Str) : Option Config :=
  lines.foldlM parseStep ([] : Config)

/-! ### The configuration serializer -/

/-- The sticky-error line writer from config.go.  Writing to an in-memory
buffer cannot fail, so the sticky Err field is always nil and is omitted;
out is everything written so far and N the Fprintf byte count (UTF-8
bytes). -/
structure configWriter where
  out : Str
  N : Nat

/-- UTF-8 byte length of a string, as counted by Go's Fprintf return value. -/
def utf8Len (s : Str) : Nat := (s.map Char.utf8Size).sum

/-- The formatted text of one option line, as produced by the two Fprintf
formats in configWriter.WriteLine: "# CONFIG_%s is not set\n" for value
"n", "CONFIG_%s=%s\n" otherwise. -/
def configLine (option value : Str) : Str :=
  if value = "n".toList then
    "# CONFIG_".toList ++ option ++ " is not set\n".toList
  else
    "CONFIG_".toList ++ option ++ "=".toList ++ value ++ "\n".toList

/-- configWriter.WriteLine from config.go. -/
def configWriter.WriteLine (w : configWriter) (option value : Str) : configWriter :=
  { out := w.out ++ configLine option value, N := w.N + utf8Len (configLine option value) }

/-- Config.WriteTo from config.go: collect the keys, sort them, write one
line per option.  The getD default is never taken: every opt comes from
cfg's key list (Go indexes the map directly). -/
def Config.WriteTo (cfg : Config) : configWriter :=
  let opts := sortBy leStr (cfg.map Prod.fst)
  opts.foldl
    (fun w opt => configWriter.WriteLine w opt ((Config.lookup cfg opt).getD []))
    ⟨[], 0⟩

/-! ### Equality of configurations -/

/-- Config.containedIn from config.go. -/
def Config.containedIn (cfg other : Config) : Bool :=
  cfg.all fun kv => Config.lookup other kv.1 == some kv.2

/-- Config.Equal from config.go. -/
def Config.Equal (cfg other : Config) : Bool :=
  Config.containedIn cfg other && Config.containedIn other cfg

/-! ### Diffs between configurations -/

/-- ConfigValue from config.go. -/
structure ConfigValue where
  Opt : Str
  Val : Str
deriving DecidableEq

/-- ConfigChange from config.go. -/
structure ConfigChange where
  Opt : Str
  OldVal : Str
  NewVal : Str
deriving DecidableEq

/-- ConfigDiff from config.go. -/
structure ConfigDiff where
  InOld : List ConfigValue
  Changes : List ConfigChange
  InNew : List ConfigValue
deriving DecidableEq

/-- ConfigDiff.sort from config.go: sort each sequence by option name
(sort.Slice with less = ltStr on Opt; see the header note on sortBy). -/
def ConfigDiff.sort (diff : ConfigDiff) : ConfigDiff :=
  ⟨sortBy (fun a b => leStr a.Opt b.Opt) diff.InOld,
   sortBy (fun a b => leStr a.Opt b.Opt) diff.Changes,
   sortBy (fun a b => leStr a.Opt b.Opt) diff.InNew⟩

/-- The InOld case of the first DiffConfig loop (also, with the roles of
the two configurations swapped, the InNew case of the second loop): keep
the entry when the option is absent from other. -/
def inOldFn (other : Config) (kv : Str × Str) : Option ConfigValue :=
  if (Config.lookup other kv.1).isNone then some ⟨kv.1, kv.2⟩ else none

/-- The Changes case of the first DiffConfig loop: record a change when the
option is present in other with a different value. -/
def changesFn (other : Config) (kv : Str × Str) : Option ConfigChange :=
  match Config.lookup other kv.1 with
  | some newval => if kv.2 ≠ newval then some ⟨kv.1, kv.2, newval⟩ else none
  | none => none

/-- DiffConfig from config.go.  The single Go loop over old appends to
InOld when the option is absent from new and to Changes when present with
a different value; the two filterMaps below collect exactly those two
append sequences.  The second loop over new collects InNew. -/
def DiffConfig (old new : Config) : ConfigDiff :=
  ConfigDiff.sort
    ⟨old.filterMap (inOldFn new),
     old.filterMap (changesFn new),
     new.filterMap (inOldFn old)⟩

/-- The error taxonomy of Config.ApplyDiff: invalidOldValueError,
invalidChangeError, mismatchedChangeError (carrying the observed old
value), invalidNewValueError. -/
inductive ApplyError where
  | invalidOldValue : ConfigValue → ApplyError
  | invalidChange : ConfigChange → ApplyError
  | mismatchedChange : ConfigChange → Str → ApplyError
  | invalidNewValue : ConfigValue → ApplyError
deriving DecidableEq

/-- The diff.InOld loop of Config.ApplyDiff: presence is checked against
cfg, deletion happens on the working copy acc. -/
def applyInOld (cfg : Config) : Config → List ConfigValue → Except ApplyError Config
  | acc, [] => .ok acc
  | acc, cv :: rest =>
    match Config.lookup cfg cv.Opt with
    | none => .error (.invalidOldValue cv)
    | some _ => applyInOld cfg (Config.erase acc cv.Opt) rest

/-- The diff.Changes loop of Config.ApplyDiff. -/
def applyChanges (cfg : Config) : Config → List ConfigChange → Except ApplyError Config
  | acc, [] => .ok acc
  | acc, cc :: rest =>
    match Config.lookup cfg cc.Opt with
    | none => .error (.invalidChange cc)
    | some oldval =>
      if oldval ≠ cc.OldVal then .error (.mismatchedChange cc oldval)
      else applyChanges cfg (Config.insert acc cc.Opt cc.NewVal) rest

/-- The diff.InNew loop of Config.ApplyDiff. -/
def applyInNew (cfg : Config) : Config → List ConfigValue → Except ApplyError Config
  | acc, [] => .ok acc
  | acc, cv :: rest =>
    match Config.lookup cfg cv.Opt with
    | some _ => .error (.invalidNewValue cv)
    | none => applyInNew cfg (Config.insert acc cv.Opt cv.Val) rest

/-- Config.ApplyDiff from config.go.  The working configuration starts as a
copy of cfg (value semantics make the copy loop implicit); all membership
checks are against the original cfg. -/
def Config.ApplyDiff (cfg : Config) (diff : ConfigDiff) : Except ApplyError Config := do
  let n1 ← applyInOld cfg cfg diff.InOld
  let n2 ← applyChanges cfg n1 diff.Changes
  applyInNew cfg n2 diff.InNew

deriving instance DecidableEq for Except

/-! ### The shape of DiffConfig's output on canonical inputs -/

theorem inOldFn_key {other : Config} {kv : Str × Str} {cv : ConfigValue}
    (h : inOldFn other kv = some cv) : cv.Opt = kv.1 := by
  by_cases hn : (Config.lookup other kv.1).isNone = true
  · simp only [inOldFn, if_pos hn, Option.some.injEq] at h
    rw [← h]
  · simp [inOldFn, hn] at h

theorem changesFn_key {other : Config} {kv : Str × Str} {cc : ConfigChange}
    (h : changesFn other kv = some cc) : cc.Opt = kv.1 := by
  unfold changesFn at h
  cases hl : Config.lookup other kv.1 with
  | none => rw [hl] at h; simp at h
  | some newval =>
    rw [hl] at h
    by_cases hne : kv.2 ≠ newval
    · simp only [if_pos hne, Option.some.injEq] at h
      rw [← h]
    · simp [hne] at h

theorem pairwise_filterMap_key {β : Type} (keyfn : β → Str)
    (f : Str × Str → Option β)
    (hf : ∀ kv r, f kv = some r → keyfn r = kv.1) {cfg : Config}
    (hc : Config.Canonical cfg) :
    (cfg.filterMap f).Pairwise (fun x y => ltStr (keyfn x) (keyfn y) = true) := by
  refine List.Pairwise.filterMap f ?_ hc
  intro a a' hR b hb b' hb'
  rw [hf a b hb, hf a' b' hb']
  exact hR

theorem sortBy_key_eq_self {β : Type} (keyfn : β → Str) (l : List β)
    (h : l.Pairwise (fun x y => ltStr (keyfn x) (keyfn y) = true)) :
    sortBy (fun a b => leStr (keyfn a) (keyfn b)) l = l :=
  sortBy_eq_self _ _ (h.imp fun hab => leStr_of_ltStr hab)

theorem diffConfig_inOld {old : Config} (new : Config)
    (hold : Config.Canonical old) :
    (DiffConfig old new).InOld = old.filterMap (inOldFn new) := by
  simp only [DiffConfig, ConfigDiff.sort]
  exact sortBy_key_eq_self (fun cv : ConfigValue => cv.Opt) _
    (pairwise_filterMap_key _ _ (fun kv r h => inOldFn_key h) hold)

theorem diffConfig_changes {old : Config} (new : Config)
    (hold : Config.Canonical old) :
    (DiffConfig old new).Changes = old.filterMap (changesFn new) := by
  simp only [DiffConfig, ConfigDiff.sort]
  exact sortBy_key_eq_self (fun cc : ConfigChange => cc.Opt) _
    (pairwise_filterMap_key _ _ (fun kv r h => changesFn_key h) hold)

theorem diffConfig_inNew (old : Config) {new : Config}
    (hnew : Config.Canonical new) :
    (DiffConfig old new).InNew = new.filterMap (inOldFn old) := by
  simp only [DiffConfig, ConfigDiff.sort]
  exact sortBy_key_eq_self (fun cv : ConfigValue => cv.Opt) _
    (pairwise_filterMap_key _ _ (fun kv r h => inOldFn_key h) hnew)

theorem mem_filterMap_inOldFn {a b : Config} {cv : ConfigValue}
    (hc : Config.Canonical a) :
    cv ∈ a.filterMap (inOldFn b) ↔
      Config.lookup a cv.Opt = some cv.Val ∧ Config.lookup b cv.Opt = none := by
  rw [List.mem_filterMap]
  constructor
  · rintro ⟨kv, hmem, heq⟩
    by_cases hn : (Config.lookup b kv.1).isNone = true
    · simp only [inOldFn, if_pos hn, Option.some.injEq] at heq
      rw [← heq]
      exact ⟨lookup_eq_some_of_mem hc (by exact hmem),
        Option.isNone_iff_eq_none.mp hn⟩
    · simp [inOldFn, hn] at heq
  · rintro ⟨ha, hb⟩
    exact ⟨(cv.Opt, cv.Val), mem_of_lookup_eq_some ha,
      by simp [inOldFn, hb]⟩

theorem mem_filterMap_changesFn {a b : Config} {cc : ConfigChange}
    (hc : Config.Canonical a) :
    cc ∈ a.filterMap (changesFn b) ↔
      Config.lookup a cc.Opt = some cc.OldVal ∧
      Config.lookup b cc.Opt = some cc.NewVal ∧ cc.OldVal ≠ cc.NewVal := by
  rw [List.mem_filterMap]
  constructor
  · rintro ⟨kv, hmem, heq⟩
    unfold changesFn at heq
    cases hl : Config.lookup b kv.1 with
    | none => rw [hl] at heq; simp at heq
    | some newval =>
      rw [hl] at heq
      by_cases hne : kv.2 ≠ newval
      · simp only [if_pos hne, Option.some.injEq] at heq
        rw [← heq]
        exact ⟨lookup_eq_some_of_mem hc (by exact hmem), hl, hne⟩
      · simp [hne] at heq
  · rintro ⟨ha, hb, hne⟩
    refine ⟨(cc.Opt, cc.OldVal), mem_of_lookup_eq_some ha, ?_⟩
    simp [changesFn, hb, hne]

theorem key_ne_of_ltStr {x y : Str} (h : ltStr x y = true) : x ≠ y := by
  intro he
  rw [he, ltStr_irrefl] at h
  simp at h

/-! ### What the three ApplyDiff loops do when they succeed -/

theorem applyInOld_ok (cfg : Config) {l : List ConfigValue}
    (hpres : ∀ cv ∈ l, (Config.lookup cfg cv.Opt).isSome = true) (acc : Config) :
    ∃ r, applyInOld cfg acc l = .ok r ∧
      (∀ cv ∈ l, Config.lookup r cv.Opt = none) ∧
      (∀ k, (∀ cv ∈ l, cv.Opt ≠ k) → Config.lookup r k = Config.lookup acc k) ∧
      (Config.Canonical acc → Config.Canonical r) := by
  induction l generalizing acc with
  | nil => exact ⟨acc, rfl, by simp, fun k _ => rfl, id⟩
  | cons cv rest ih =>
    have hhead := hpres cv (by simp)
    cases hl : Config.lookup cfg cv.Opt with
    | none => rw [hl] at hhead; simp at hhead
    | some v =>
      obtain ⟨r, hr, h1, h2, h3⟩ :=
        ih (fun cv' hm => hpres cv' (List.mem_cons_of_mem _ hm))
          (Config.erase acc cv.Opt)
      refine ⟨r, ?_, ?_, ?_, ?_⟩
      · rw [show applyInOld cfg acc (cv :: rest) =
          applyInOld cfg (Config.erase acc cv.Opt) rest by
            simp [applyInOld, hl]]
        exact hr
      · intro cv' hm
        rcases List.mem_cons.mp hm with rfl | hm'
        · by_cases hx : ∀ cv'' ∈ rest, cv''.Opt ≠ cv'.Opt
          · rw [h2 cv'.Opt hx, lookup_erase]
            simp
          · push_neg at hx
            obtain ⟨cv'', hm'', he⟩ := hx
            rw [← he]
            exact h1 cv'' hm''
        · exact h1 cv' hm'
      · intro k hk
        rw [h2 k (fun cv' hm => hk cv' (List.mem_cons_of_mem _ hm)), lookup_erase,
          if_neg (fun he => hk cv (by simp) he.symm)]
      · intro hacc
        exact h3 (erase_canonical hacc cv.Opt)

theorem applyChanges_ok (cfg : Config) {l : List ConfigChange}
    (hok : ∀ cc ∈ l, Config.lookup cfg cc.Opt = some cc.OldVal)
    (hnd : l.Pairwise (fun a b => a.Opt ≠ b.Opt)) (acc : Config) :
    ∃ r, applyChanges cfg acc l = .ok r ∧
      (∀ cc ∈ l, Config.lookup r cc.Opt = some cc.NewVal) ∧
      (∀ k, (∀ cc ∈ l, cc.Opt ≠ k) → Config.lookup r k = Config.lookup acc k) ∧
      (Config.Canonical acc → Config.Canonical r) := by
  induction l generalizing acc with
  | nil => exact ⟨acc, rfl, by simp, fun k _ => rfl, id⟩
  | cons cc rest ih =>
    have hhead := hok cc (by simp)
    rcases List.pairwise_cons.mp hnd with ⟨hne, hnd'⟩
    obtain ⟨r, hr, h1, h2, h3⟩ :=
      ih (fun cc' hm => hok cc' (List.mem_cons_of_mem _ hm)) hnd'
        (Config.insert acc cc.Opt cc.NewVal)
    refine ⟨r, ?_, ?_, ?_, ?_⟩
    · rw [show applyChanges cfg acc (cc :: rest) =
        applyChanges cfg (Config.insert acc cc.Opt cc.NewVal) rest by
          simp [applyChanges, hhead]]
      exact hr
    · intro cc' hm
      rcases List.mem_cons.mp hm with rfl | hm'
      · rw [h2 cc'.Opt (fun cc'' hm'' => (hne cc'' hm'').symm), lookup_insert]
        simp
      · exact h1 cc' hm'
    · intro k hk
      rw [h2 k (fun cc' hm => hk cc' (List.mem_cons_of_mem _ hm)), lookup_insert,
        if_neg (fun he => hk cc (by simp) he.symm)]
    · intro hacc
      exact h3 (insert_canonical hacc cc.Opt cc.NewVal)

theorem applyInNew_ok (cfg : Config) {l : List ConfigValue}
    (habs : ∀ cv ∈ l, Config.lookup cfg cv.Opt = none)
    (hnd : l.Pairwise (fun a b => a.Opt ≠ b.Opt)) (acc : Config) :
    ∃ r, applyInNew cfg acc l = .ok r ∧
      (∀ cv ∈ l, Config.lookup r cv.Opt = some cv.Val) ∧
      (∀ k, (∀ cv ∈ l, cv.Opt ≠ k) → Config.lookup r k = Config.lookup acc k) ∧
      (Config.Canonical acc → Config.Canonical r) := by
  induction l generalizing acc with
  | nil => exact ⟨acc, rfl, by simp, fun k _ => rfl, id⟩
  | cons cv rest ih =>
    have hhead := habs cv (by simp)
    rcases List.pairwise_cons.mp hnd with ⟨hne, hnd'⟩
    obtain ⟨r, hr, h1, h2, h3⟩ :=
      ih (fun cv' hm => habs cv' (List.mem_cons_of_mem _ hm)) hnd'
        (Config.insert acc cv.Opt cv.Val)
    refine ⟨r, ?_, ?_, ?_, ?_⟩
    · rw [show applyInNew cfg acc (cv :: rest) =
        applyInNew cfg (Config.insert acc cv.Opt cv.Val) rest by
          simp [applyInNew, hhead]]
      exact hr
    · intro cv' hm
      rcases List.mem_cons.mp hm with rfl | hm'
      · rw [h2 cv'.Opt (fun cv'' hm'' => (hne cv'' hm'').symm), lookup_insert]
        simp
      · exact h1 cv' hm'
    · intro k hk
      rw [h2 k (fun cv' hm => hk cv' (List.mem_cons_of_mem _ hm)), lookup_insert,
        if_neg (fun he => hk cv (by simp) he.symm)]
    · intro hacc
      exact h3 (insert_canonical hacc cv.Opt cv.Val)

/-- The round-trip core: applying DiffConfig A B to A succeeds and yields
exactly B. -/
theorem applyDiff_diffConfig {A B : Config} (hA : Config.Canonical A)
    (hB : Config.Canonical B) :
    Config.ApplyDiff A (DiffConfig A B) = .ok B := by
  have hInOldEq : (DiffConfig A B).InOld = A.filterMap (inOldFn B) :=
    diffConfig_inOld B hA
  have hCH : (DiffConfig A B).Changes = A.filterMap (changesFn B) :=
    diffConfig_changes B hA
  have hIN : (DiffConfig A B).InNew = B.filterMap (inOldFn A) :=
    diffConfig_inNew A hB
  have hmemInOld : ∀ cv ∈ (DiffConfig A B).InOld,
      Config.lookup A cv.Opt = some cv.Val ∧ Config.lookup B cv.Opt = none := by
    intro cv hm
    exact (mem_filterMap_inOldFn hA).mp (hInOldEq ▸ hm)
  have hmemCH : ∀ cc ∈ (DiffConfig A B).Changes,
      Config.lookup A cc.Opt = some cc.OldVal ∧
      Config.lookup B cc.Opt = some cc.NewVal ∧ cc.OldVal ≠ cc.NewVal := by
    intro cc hm
    exact (mem_filterMap_changesFn hA).mp (hCH ▸ hm)
  have hmemIN : ∀ cv ∈ (DiffConfig A B).InNew,
      Config.lookup B cv.Opt = some cv.Val ∧ Config.lookup A cv.Opt = none := by
    intro cv hm
    exact (mem_filterMap_inOldFn hB).mp (hIN ▸ hm)
  have hndCH : (DiffConfig A B).Changes.Pairwise (fun a b => a.Opt ≠ b.Opt) := by
    rw [hCH]
    exact (pairwise_filterMap_key _ _ (fun kv r h => changesFn_key h) hA).imp
      fun h => key_ne_of_ltStr h
  have hndIN : (DiffConfig A B).InNew.Pairwise (fun a b => a.Opt ≠ b.Opt) := by
    rw [hIN]
    exact (pairwise_filterMap_key _ _ (fun kv r h => inOldFn_key h) hB).imp
      fun h => key_ne_of_ltStr h
  obtain ⟨r1, hr1, p1a, p1b, p1c⟩ :=
    applyInOld_ok A (l := (DiffConfig A B).InOld)
      (fun cv hm => by rw [(hmemInOld cv hm).1]; rfl) A
  obtain ⟨r2, hr2, p2a, p2b, p2c⟩ :=
    applyChanges_ok A (l := (DiffConfig A B).Changes)
      (fun cc hm => (hmemCH cc hm).1) hndCH r1
  obtain ⟨r3, hr3, p3a, p3b, p3c⟩ :=
    applyInNew_ok A (l := (DiffConfig A B).InNew)
      (fun cv hm => (hmemIN cv hm).2) hndIN r2
  have hrun : Config.ApplyDiff A (DiffConfig A B) = .ok r3 := by
    rw [Config.ApplyDiff, hr1]
    show Except.bind (Except.ok r1) _ = _
    rw [show ∀ (f : Config → Except ApplyError Config),
        Except.bind (Except.ok r1) f = f r1 from fun f => rfl]
    rw [hr2]
    show Except.bind (Except.ok r2) _ = _
    rw [show ∀ (f : Config → Except ApplyError Config),
        Except.bind (Except.ok r2) f = f r2 from fun f => rfl]
    exact hr3
  have hcan : Config.Canonical r3 := p3c (p2c (p1c hA))
  have hlook : ∀ k, Config.lookup r3 k = Config.lookup B k := by
    intro k
    have untouchedInOld : Config.lookup B k ≠ none →
        ∀ cv ∈ (DiffConfig A B).InOld, cv.Opt ≠ k := by
      intro hBk cv hm he
      exact hBk (he ▸ (hmemInOld cv hm).2)
    have untouchedIN_ofA : Config.lookup A k ≠ none →
        ∀ cv ∈ (DiffConfig A B).InNew, cv.Opt ≠ k := by
      intro hAk cv hm he
      exact hAk (he ▸ (hmemIN cv hm).2)
    cases hAk : Config.lookup A k with
    | some v =>
      cases hBk : Config.lookup B k with
      | some w =>
        by_cases hvw : v = w
        · -- untouched by all three phases
          have hch : ∀ cc ∈ (DiffConfig A B).Changes, cc.Opt ≠ k := by
            intro cc hm he
            obtain ⟨ho, hn, hne⟩ := hmemCH cc hm
            rw [he, hAk] at ho
            rw [he, hBk] at hn
            exact hne (by
              rw [← Option.some.injEq] at hvw ⊢
              rw [ho] at hvw
              rw [hn] at hvw
              exact hvw.symm ▸ rfl)
          rw [p3b k (untouchedIN_ofA (by simp [hAk]))]
          rw [p2b k hch]
          rw [p1b k (untouchedInOld (by simp [hBk]))]
          rw [hAk, hvw]
        · -- changed
          have hm : (⟨k, v, w⟩ : ConfigChange) ∈ (DiffConfig A B).Changes := by
            rw [hCH]
            exact (mem_filterMap_changesFn hA).mpr ⟨hAk, hBk, hvw⟩
          rw [p3b k (untouchedIN_ofA (by simp [hAk]))]
          rw [p2a ⟨k, v, w⟩ hm]
      | none =>
        -- removed
        have hm : (⟨k, v⟩ : ConfigValue) ∈ (DiffConfig A B).InOld := by
          rw [hInOldEq]
          exact (mem_filterMap_inOldFn hA).mpr ⟨hAk, hBk⟩
        have hch : ∀ cc ∈ (DiffConfig A B).Changes, cc.Opt ≠ k := by
          intro cc hmc he
          obtain ⟨_, hn, _⟩ := hmemCH cc hmc
          rw [he, hBk] at hn
          exact Option.noConfusion hn
        rw [p3b k (untouchedIN_ofA (by simp [hAk]))]
        rw [p2b k hch]
        rw [p1a ⟨k, v⟩ hm]
    | none =>
      cases hBk : Config.lookup B k with
      | some w =>
        -- added
        have hm : (⟨k, w⟩ : ConfigValue) ∈ (DiffConfig A B).InNew := by
          rw [hIN]
          exact (mem_filterMap_inOldFn hB).mpr ⟨hBk, hAk⟩
        rw [p3a ⟨k, w⟩ hm]
      | none =>
        have hio : ∀ cv ∈ (DiffConfig A B).InOld, cv.Opt ≠ k := by
          intro cv hm he
          obtain ⟨ho, _⟩ := hmemInOld cv hm
          rw [he, hAk] at ho
          exact Option.noConfusion ho
        have hch : ∀ cc ∈ (DiffConfig A B).Changes, cc.Opt ≠ k := by
          intro cc hmc he
          obtain ⟨ho, _, _⟩ := hmemCH cc hmc
          rw [he, hAk] at ho
          exact Option.noConfusion ho
        have hin : ∀ cv ∈ (DiffConfig A B).InNew, cv.Opt ≠ k := by
          intro cv hm he
          obtain ⟨hn, _⟩ := hmemIN cv hm
          rw [he, hBk] at hn
          exact Option.noConfusion hn
        rw [p3b k hin, p2b k hch, p1b k hio, hAk]
  rw [hrun, Config.ext hcan hB hlook]

/-! ### Exact run of ApplyDiff: first violation in processing order wins -/

/-- The configuration ApplyDiff builds when no check fails: cfg with the
InOld options deleted, the Changes options updated, the InNew options
added, in processing order. -/
def applyDiffResult (cfg : Config) (d : ConfigDiff) : Config :=
  d.InNew.foldl (fun m cv => Config.insert m cv.Opt cv.Val)
    (d.Changes.foldl (fun m cc => Config.insert m cc.Opt cc.NewVal)
      (d.InOld.foldl (fun m cv => Config.erase m cv.Opt) cfg))

theorem applyInOld_spec (cfg : Config) (l : List ConfigValue) (acc : Config) :
    applyInOld cfg acc l =
      match l.find? (fun cv => (Config.lookup cfg cv.Opt).isNone) with
      | some cv => .error (.invalidOldValue cv)
      | none => .ok (l.foldl (fun m cv => Config.erase m cv.Opt) acc) := by
  induction l generalizing acc with
  | nil => rfl
  | cons cv rest ih =>
    cases hl : Config.lookup cfg cv.Opt with
    | none =>
      rw [show applyInOld cfg acc (cv :: rest) = .error (.invalidOldValue cv) by
        simp [applyInOld, hl]]
      rw [List.find?_cons_of_pos _ (by simp [hl])]
    | some v =>
      rw [show applyInOld cfg acc (cv :: rest) =
        applyInOld cfg (Config.erase acc cv.Opt) rest by simp [applyInOld, hl]]
      rw [ih, List.find?_cons_of_neg _ (by simp [hl])]
      rfl

theorem applyChanges_spec (cfg : Config) (l : List ConfigChange) (acc : Config) :
    applyChanges cfg acc l =
      match l.find? (fun cc => decide (Config.lookup cfg cc.Opt ≠ some cc.OldVal)) with
      | some cc =>
        match Config.lookup cfg cc.Opt with
        | none => .error (.invalidChange cc)
        | some oldval => .error (.mismatchedChange cc oldval)
      | none => .ok (l.foldl (fun m cc => Config.insert m cc.Opt cc.NewVal) acc) := by
  induction l generalizing acc with
  | nil => rfl
  | cons cc rest ih =>
    cases hl : Config.lookup cfg cc.Opt with
    | none =>
      rw [show applyChanges cfg acc (cc :: rest) = .error (.invalidChange cc) by
        simp [applyChanges, hl]]
      rw [List.find?_cons_of_pos _ (by simp [hl])]
      simp [hl]
    | some oldval =>
      by_cases hov : oldval = cc.OldVal
      · rw [show applyChanges cfg acc (cc :: rest) =
          applyChanges cfg (Config.insert acc cc.Opt cc.NewVal) rest by
            simp [applyChanges, hl, hov]]
        rw [ih, List.find?_cons_of_neg _ (by simp [hl, hov])]
        rfl
      · rw [show applyChanges cfg acc (cc :: rest) =
          .error (.mismatchedChange cc oldval) by simp [applyChanges, hl, hov]]
        rw [List.find?_cons_of_pos _ (by simp [hl, hov])]
        simp [hl]

theorem applyInNew_spec (cfg : Config) (l : List ConfigValue) (acc : Config) :
    applyInNew cfg acc l =
      match l.find? (fun cv => (Config.lookup cfg cv.Opt).isSome) with
      | some cv => .error (.invalidNewValue cv)
      | none => .ok (l.foldl (fun m cv => Config.insert m cv.Opt cv.Val) acc) := by
  induction l generalizing acc with
  | nil => rfl
  | cons cv rest ih =>
    cases hl : Config.lookup cfg cv.Opt with
    | some v =>
      rw [show applyInNew cfg acc (cv :: rest) = .error (.invalidNewValue cv) by
        simp [applyInNew, hl]]
      rw [List.find?_cons_of_pos _ (by simp [hl])]
    | none =>
      rw [show applyInNew cfg acc (cv :: rest) =
        applyInNew cfg (Config.insert acc cv.Opt cv.Val) rest by
          simp [applyInNew, hl]]
      rw [ih, List.find?_cons_of_neg _ (by simp [hl])]
      rfl

theorem applyDiff_run (cfg : Config) (d : ConfigDiff) :
    Config.ApplyDiff cfg d =
      match d.InOld.find? (fun cv => (Config.lookup cfg cv.Opt).isNone) with
      | some cv => .error (.invalidOldValue cv)
      | none =>
        match d.Changes.find?
            (fun cc => decide (Config.lookup cfg cc.Opt ≠ some cc.OldVal)) with
        | some cc =>
          match Config.lookup cfg cc.Opt with
          | none => .error (.invalidChange cc)
          | some oldval => .error (.mismatchedChange cc oldval)
        | none =>
          match d.InNew.find? (fun cv => (Config.lookup cfg cv.Opt).isSome) with
          | some cv => .error (.invalidNewValue cv)
          | none => .ok (applyDiffResult cfg d) := by
  rw [Config.ApplyDiff, applyInOld_spec]
  cases hio : d.InOld.find? (fun cv => (Config.lookup cfg cv.Opt).isNone) with
  | some cv => rfl
  | none =>
    show Except.bind (Except.ok _) _ = _
    rw [show ∀ (x : Config) (f : Config → Except ApplyError Config),
      Except.bind (Except.ok x) f = f x from fun x f => rfl]
    rw [applyChanges_spec]
    cases hch : d.Changes.find?
        (fun cc => decide (Config.lookup cfg cc.Opt ≠ some cc.OldVal)) with
    | some cc =>
      cases hl : Config.lookup cfg cc.Opt with
      | none => simp only [hl]; rfl
      | some oldval => simp only [hl]; rfl
    | none =>
      show Except.bind (Except.ok _) _ = _
      rw [show ∀ (x : Config) (f : Config → Except ApplyError Config),
        Except.bind (Except.ok x) f = f x from fun x f => rfl]
      rw [applyInNew_spec]
      rfl

/-! ### What WriteTo writes -/

theorem utf8Len_append (a b : Str) : utf8Len (a ++ b) = utf8Len a + utf8Len b := by
  simp [utf8Len]

theorem foldl_WriteLine (g : Str → Str) (opts : List Str) (w : configWriter) :
    opts.foldl (fun w' opt => configWriter.WriteLine w' opt (g opt)) w =
      ⟨w.out ++ (opts.map (fun o => configLine o (g o))).flatten,
       w.N + utf8Len (opts.map (fun o => configLine o (g o))).flatten⟩ := by
  induction opts generalizing w with
  | nil => cases w; simp [utf8Len]
  | cons o rest ih =>
    rw [List.foldl_cons, ih]
    simp [configWriter.WriteLine, utf8Len_append, Nat.add_assoc]

/-- On a canonical configuration, WriteTo writes exactly one configLine per
entry, in the (already sorted) entry order, and N counts the UTF-8 bytes
written. -/
theorem WriteTo_eq {cfg : Config} (hc : Config.Canonical cfg) :
    Config.WriteTo cfg =
      ⟨(cfg.map (fun kv => configLine kv.1 kv.2)).flatten,
       utf8Len (cfg.map (fun kv => configLine kv.1 kv.2)).flatten⟩ := by
  have hsorted : (cfg.map Prod.fst).Pairwise (fun a b => ltStr a b = true) :=
    List.pairwise_map.mpr hc
  have hsort : sortBy leStr (cfg.map Prod.fst) = cfg.map Prod.fst :=
    sortBy_key_eq_self (fun s : Str => s) _ hsorted
  rw [Config.WriteTo]
  show (sortBy leStr (cfg.map Prod.fst)).foldl _ _ = _
  rw [hsort]
  have hmap : (cfg.map Prod.fst).map
      (fun o => configLine o ((Config.lookup cfg o).getD [])) =
      cfg.map (fun kv => configLine kv.1 kv.2) := by
    rw [List.map_map]
    refine List.map_congr_left ?_
    intro kv hm
    simp only [Function.comp]
    rw [lookup_eq_some_of_mem hc hm]
    rfl
  rw [foldl_WriteLine (fun o => (Config.lookup cfg o).getD []) (cfg.map Prod.fst)
    ⟨[], 0⟩]
  rw [hmap]
  simp

/-! ### How parseConfigLine treats the lines the serializer produces -/

/-- The right-trim half of strings.TrimSpace. -/
def rtrimWS (s : Str) : Str := (s.reverse.dropWhile goIsSpace).reverse

theorem trimSpace_eq_rtrim {s : Str} (h : ∀ a ∈ s.head?, goIsSpace a = false) :
    trimSpace s = rtrimWS s := by
  cases s with
  | nil => rfl
  | cons a t =>
    have ha : goIsSpace a = false := h a (by simp)
    simp only [trimSpace, rtrimWS, List.dropWhile_cons, ha]
    simp

theorem rtrimWS_append_marker (x : Str) {c : Char} (hc : goIsSpace c = false)
    (y : Str) : rtrimWS (x ++ c :: y) = x ++ c :: rtrimWS y := by
  simp only [rtrimWS]
  rw [show (x ++ c :: y).reverse = y.reverse ++ (c :: x.reverse) by
    simp [List.reverse_append]]
  rw [List.dropWhile_append]
  by_cases he : (y.reverse.dropWhile goIsSpace).isEmpty = true
  · rw [if_pos he, List.dropWhile_cons, hc]
    simp only [Bool.false_eq_true, if_neg (by simp : ¬False)]
    rw [List.isEmpty_iff.mp he]
    simp
  · rw [if_neg he]
    simp

theorem rtrimWS_eq_self {s : Str}
    (h : ∀ a ∈ s.getLast?, goIsSpace a = false) : rtrimWS s = s := by
  simp only [rtrimWS]
  cases hs : s.reverse with
  | nil => simpa using congrArg List.reverse hs
  | cons a t =>
    have ha : goIsSpace a = false := by
      apply h
      rw [← List.head?_reverse, hs]
      simp
    rw [List.dropWhile_cons, ha]
    simp only [Bool.false_eq_true, if_neg (by simp : ¬False)]
    rw [← hs]
    simp

theorem trimPrefixStr_append (p x : Str) : trimPrefixStr (p ++ x) p = x := by
  rw [trimPrefixStr, if_pos (List.isPrefixOf_iff_prefix.mpr (List.prefix_append p x)),
    List.drop_left]

theorem trimSuffixStr_append (x p : Str) : trimSuffixStr (x ++ p) p = x := by
  rw [trimSuffixStr, if_pos (List.isSuffixOf_iff_suffix.mpr (List.suffix_append x p))]
  rw [show (x ++ p).length - p.length = x.length by simp]
  exact List.take_left x p

theorem hasPrefixStr_append (p x : Str) : hasPrefixStr (p ++ x) p = true :=
  List.isPrefixOf_iff_prefix.mpr (List.prefix_append p x)

theorem hasSuffixStr_append (x p : Str) : hasSuffixStr (x ++ p) p = true :=
  List.isSuffixOf_iff_suffix.mpr (List.suffix_append x p)

theorem hasPrefixStr_cons_ne {a b : Char} (hne : b ≠ a) (s p : Str) :
    hasPrefixStr (a :: s) (b :: p) = false := by
  rw [hasPrefixStr]
  by_cases h : (b :: p).isPrefixOf (a :: s) = true
  · exact absurd (List.cons_prefix_cons.mp (List.isPrefixOf_iff_prefix.mp h)).1 hne
  · exact Bool.not_eq_true _ ▸ h

theorem splitOnChar_not_mem (c : Char) (s : Str) :
    ∀ t ∈ splitOnChar c s, c ∉ t := by
  induction s with
  | nil => intro t ht; simp [splitOnChar] at ht; simp [ht]
  | cons a rest ih =>
    intro t ht
    by_cases ha : a = c
    · rw [show splitOnChar c (a :: rest) = [] :: splitOnChar c rest by
        simp [splitOnChar, ha]] at ht
      rcases List.mem_cons.mp ht with rfl | ht'
      · simp
      · exact ih t ht'
    · simp only [splitOnChar, if_neg ha] at ht
      cases hsp : splitOnChar c rest with
      | nil => exact absurd hsp (splitOnChar_ne_nil c rest)
      | cons u us =>
        rw [hsp] at ht
        rcases List.mem_cons.mp ht with rfl | ht'
        · intro hmem
          rcases List.mem_cons.mp hmem with rfl | hmem'
          · exact ha rfl
          · exact ih u (by rw [hsp]; simp) hmem'
        · exact ih t (by rw [hsp]; exact List.mem_cons_of_mem _ ht')

theorem splitOnChar_subset (c : Char) (s : Str) :
    ∀ t ∈ splitOnChar c s, ∀ a ∈ t, a ∈ s := by
  induction s with
  | nil => intro t ht; simp [splitOnChar] at ht; simp [ht]
  | cons b rest ih =>
    intro t ht a hat
    by_cases hb : b = c
    · rw [show splitOnChar c (b :: rest) = [] :: splitOnChar c rest by
        simp [splitOnChar, hb]] at ht
      rcases List.mem_cons.mp ht with rfl | ht'
      · simp at hat
      · exact List.mem_cons_of_mem _ (ih t ht' a hat)
    · simp only [splitOnChar, if_neg hb] at ht
      cases hsp : splitOnChar c rest with
      | nil => exact absurd hsp (splitOnChar_ne_nil c rest)
      | cons u us =>
        rw [hsp] at ht
        rcases List.mem_cons.mp ht with rfl | ht'
        · rcases List.mem_cons.mp hat with rfl | hat'
          · simp
          · exact List.mem_cons_of_mem _ (ih u (by rw [hsp]; simp) a hat')
        · exact List.mem_cons_of_mem _
            (ih t (by rw [hsp]; exact List.mem_cons_of_mem _ ht') a hat)

theorem splitOnChar_no_sep {c : Char} {s : Str} (h : c ∉ s) :
    splitOnChar c s = [s] := by
  induction s with
  | nil => rfl
  | cons a rest ih =>
    have ha : ¬(a = c) := fun he => h (he ▸ List.mem_cons_self a rest)
    rw [show splitOnChar c (a :: rest) =
      match splitOnChar c rest with
      | t :: ts => (a :: t) :: ts
      | [] => [[a]] by simp [splitOnChar, ha]]
    rw [ih (fun hm => h (List.mem_cons_of_mem _ hm))]

theorem splitOnChar_append_sep {c : Char} {x : Str} (h : c ∉ x) (y : Str) :
    splitOnChar c (x ++ c :: y) = x :: splitOnChar c y := by
  induction x with
  | nil => simp [splitOnChar]
  | cons a rest ih =>
    have ha : ¬(a = c) := fun he => h (he ▸ List.mem_cons_self a rest)
    rw [show (a :: rest) ++ c :: y = a :: (rest ++ c :: y) from rfl]
    rw [show splitOnChar c (a :: (rest ++ c :: y)) =
      match splitOnChar c (rest ++ c :: y) with
      | t :: ts => (a :: t) :: ts
      | [] => [[a]] by simp [splitOnChar, ha]]
    rw [ih (fun hm => h (List.mem_cons_of_mem _ hm))]

theorem parse_notset_line (opt : Str) :
    parseConfigLine ("# CONFIG_".toList ++ opt ++ " is not set".toList) =
      some (opt, "n".toList) := by
  have hcons : "# CONFIG_".toList ++ opt ++ " is not set".toList =
      '#' :: (" CONFIG_".toList ++ opt ++ " is not set".toList) := by
    simp [List.append_assoc]
  have hmark : "# CONFIG_".toList ++ opt ++ " is not set".toList =
      ("# CONFIG_".toList ++ opt ++ " is not se".toList) ++ 't' :: [] := by
    rw [show (" is not set".toList : Str) = " is not se".toList ++ 't' :: [] from rfl]
    simp [List.append_assoc]
  have htrim : trimSpace ("# CONFIG_".toList ++ opt ++ " is not set".toList) =
      "# CONFIG_".toList ++ opt ++ " is not set".toList := by
    rw [trimSpace_eq_rtrim (by rw [hcons]; intro a ha; simp at ha; rw [← ha]; decide)]
    rw [hmark, rtrimWS_append_marker _ (by decide)]
    rfl
  have hpre : hasPrefixStr ("# CONFIG_".toList ++ opt ++ " is not set".toList)
      "CONFIG_".toList = false := by
    rw [hcons, show ("CONFIG_".toList : Str) = 'C' :: "ONFIG_".toList from rfl]
    exact hasPrefixStr_cons_ne (by decide) _ _
  have hsuf : hasSuffixStr ("# CONFIG_".toList ++ opt ++ " is not set".toList)
      " is not set".toList = true := hasSuffixStr_append _ _
  simp only [parseConfigLine, htrim, hpre, Bool.false_eq_true, if_false, hsuf,
    if_true]
  rw [trimSuffixStr_append, trimPrefixStr_append]

theorem append_eq_cons_str (x y : Str) : x ++ "=".toList ++ y = x ++ '=' :: y := by
  simp only [List.append_assoc]
  rfl

theorem parse_set_line (opt val : Str) (hopt : '=' ∉ opt) (hval : '=' ∉ val)
    (hlast : ∀ a ∈ val.getLast?, goIsSpace a = false) :
    parseConfigLine ("CONFIG_".toList ++ opt ++ "=".toList ++ val) =
      some (opt, val) := by
  have hcons : "CONFIG_".toList ++ opt ++ "=".toList ++ val =
      'C' :: ("ONFIG_".toList ++ opt ++ "=".toList ++ val) := by
    simp only [List.append_assoc]; rfl
  have hmark : "CONFIG_".toList ++ opt ++ "=".toList ++ val =
      ("CONFIG_".toList ++ opt) ++ '=' :: val := by
    rw [← append_eq_cons_str]
  have htrim : trimSpace ("CONFIG_".toList ++ opt ++ "=".toList ++ val) =
      "CONFIG_".toList ++ opt ++ "=".toList ++ val := by
    rw [trimSpace_eq_rtrim (by rw [hcons]; intro a ha; simp at ha; rw [← ha]; decide)]
    rw [hmark, rtrimWS_append_marker _ (by decide), rtrimWS_eq_self hlast]
  have hassoc : "CONFIG_".toList ++ opt ++ "=".toList ++ val =
      "CONFIG_".toList ++ (opt ++ "=".toList ++ val) := by
    simp [List.append_assoc]
  have hpre : hasPrefixStr ("CONFIG_".toList ++ opt ++ "=".toList ++ val)
      "CONFIG_".toList = true := by
    rw [hassoc]; exact hasPrefixStr_append _ _
  have hdrop : trimPrefixStr ("CONFIG_".toList ++ opt ++ "=".toList ++ val)
      "CONFIG_".toList = opt ++ "=".toList ++ val := by
    rw [hassoc]; exact trimPrefixStr_append _ _
  have hsplit : splitOnChar '=' (opt ++ "=".toList ++ val) = [opt, val] := by
    rw [append_eq_cons_str, splitOnChar_append_sep hopt, splitOnChar_no_sep hval]
  simp only [parseConfigLine, htrim, hpre, if_true, hdrop, hsplit]

/-- C4 (amended): on a line CONFIG_<name>=<v1>=<v2> whose name and first
value segment are '='-free, the parser returns (name, v1): the value is
only the text between the first and the second '=', and everything after
the second '=' is dropped (tokens[1] of strings.Split, not the whole
remainder). -/
theorem parse_set_line_extra (name v1 v2 : Str) (h1 : '=' ∉ name) (h2 : '=' ∉ v1) :
    parseConfigLine
        ("CONFIG_".toList ++ name ++ "=".toList ++ v1 ++ "=".toList ++ v2) =
      some (name, v1) := by
  have hcons : "CONFIG_".toList ++ name ++ "=".toList ++ v1 ++ "=".toList ++ v2 =
      'C' :: ("ONFIG_".toList ++ name ++ "=".toList ++ v1 ++ "=".toList ++ v2) := by
    simp only [List.append_assoc]; rfl
  have hmark : "CONFIG_".toList ++ name ++ "=".toList ++ v1 ++ "=".toList ++ v2 =
      ("CONFIG_".toList ++ name ++ "=".toList ++ v1) ++ '=' :: v2 := by
    rw [← append_eq_cons_str]
  have htrim : trimSpace
      ("CONFIG_".toList ++ name ++ "=".toList ++ v1 ++ "=".toList ++ v2) =
      ("CONFIG_".toList ++ name ++ "=".toList ++ v1) ++ '=' :: rtrimWS v2 := by
    rw [trimSpace_eq_rtrim (by rw [hcons]; intro a ha; simp at ha; rw [← ha]; decide)]
    rw [hmark, rtrimWS_append_marker _ (by decide)]
  have hassoc : ("CONFIG_".toList ++ name ++ "=".toList ++ v1) ++ '=' :: rtrimWS v2 =
      "CONFIG_".toList ++ (name ++ '=' :: (v1 ++ '=' :: rtrimWS v2)) := by
    rw [← append_eq_cons_str v1, ← append_eq_cons_str name]
    simp [List.append_assoc]
  have hpre : hasPrefixStr
      (("CONFIG_".toList ++ name ++ "=".toList ++ v1) ++ '=' :: rtrimWS v2)
      "CONFIG_".toList = true := by
    rw [hassoc]; exact hasPrefixStr_append _ _
  have hdrop : trimPrefixStr
      (("CONFIG_".toList ++ name ++ "=".toList ++ v1) ++ '=' :: rtrimWS v2)
      "CONFIG_".toList = name ++ '=' :: (v1 ++ '=' :: rtrimWS v2) := by
    rw [hassoc]; exact trimPrefixStr_append _ _
  have hsplit : splitOnChar '=' (name ++ '=' :: (v1 ++ '=' :: rtrimWS v2)) =
      name :: v1 :: splitOnChar '=' (rtrimWS v2) := by
    rw [splitOnChar_append_sep h1, splitOnChar_append_sep h2]
  simp only [parseConfigLine, htrim, hpre, if_true, hdrop, hsplit]

/-! ### Rebuilding a configuration by parsing what WriteTo wrote -/

theorem mem_trimSpace_subset {s : Str} : ∀ a ∈ trimSpace s, a ∈ s := by
  intro a ha
  simp only [trimSpace, List.mem_reverse] at ha
  have h1 := (List.dropWhile_sublist (l := (s.dropWhile goIsSpace).reverse)
    (p := goIsSpace)).subset ha
  rw [List.mem_reverse] at h1
  exact (List.dropWhile_sublist (l := s) (p := goIsSpace)).subset h1

theorem mem_trimPrefixStr_subset {s p : Str} : ∀ a ∈ trimPrefixStr s p, a ∈ s := by
  intro a ha
  rw [trimPrefixStr] at ha
  by_cases h : p.isPrefixOf s = true
  · rw [if_pos h] at ha
    exact List.drop_subset _ s ha
  · rw [if_neg h] at ha
    exact ha

theorem mem_trimSuffixStr_subset {s p : Str} : ∀ a ∈ trimSuffixStr s p, a ∈ s := by
  intro a ha
  rw [trimSuffixStr] at ha
  by_cases h : p.isSuffixOf s = true
  · rw [if_pos h] at ha
    exact List.take_subset _ s ha
  · rw [if_neg h] at ha
    exact ha

theorem parseConfigLine_eq_of_cfg_head {l : Str}
    (hp : hasPrefixStr (trimSpace l) "CONFIG_".toList = true) :
    parseConfigLine l =
      match splitOnChar '=' (trimPrefixStr (trimSpace l) "CONFIG_".toList) with
      | t0 :: t1 :: _ => some (t0, t1)
      | _ => none := by
  simp only [parseConfigLine]
  rw [if_pos hp]

theorem parseConfigLine_eq_of_notset {l : Str}
    (hp : hasPrefixStr (trimSpace l) "CONFIG_".toList = false)
    (hs : hasSuffixStr (trimSpace l) " is not set".toList = true) :
    parseConfigLine l =
      some (trimPrefixStr (trimSuffixStr (trimSpace l) " is not set".toList)
        "# CONFIG_".toList, "n".toList) := by
  simp only [parseConfigLine]
  rw [if_neg (by rw [hp]; simp), if_pos hs]

theorem parseConfigLine_eq_other {l : Str}
    (hp : hasPrefixStr (trimSpace l) "CONFIG_".toList = false)
    (hs : hasSuffixStr (trimSpace l) " is not set".toList = false) :
    parseConfigLine l = some ([], []) := by
  simp only [parseConfigLine]
  rw [if_neg (by rw [hp]; simp), if_neg (by rw [hs]; simp)]

theorem parseConfigLine_props {l : Str} (hnl : '\n' ∉ l) {opt val : Str}
    (h : parseConfigLine l = some (opt, val)) (hne : opt ≠ []) :
    '\n' ∉ opt ∧ '\n' ∉ val ∧ '=' ∉ val ∧ (val ≠ "n".toList → '=' ∉ opt) := by
  have hsubl : ∀ a ∈ trimSpace l, a ∈ l := mem_trimSpace_subset
  by_cases hp : hasPrefixStr (trimSpace l) "CONFIG_".toList = true
  · rw [parseConfigLine_eq_of_cfg_head hp] at h
    cases hsp : splitOnChar '=' (trimPrefixStr (trimSpace l) "CONFIG_".toList) with
    | nil => rw [hsp] at h; simp at h
    | cons t0 ts =>
      cases ts with
      | nil => rw [hsp] at h; simp at h
      | cons t1 ts' =>
        rw [hsp] at h
        simp only [Option.some.injEq, Prod.mk.injEq] at h
        obtain ⟨h0, h1⟩ := h
        rw [h0, h1] at hsp
        have hsub : ∀ a ∈ opt, a ∈ l := fun a ha =>
          hsubl a (mem_trimPrefixStr_subset a
            (splitOnChar_subset '=' _ opt (by rw [hsp]; simp) a ha))
        have hsub1 : ∀ a ∈ val, a ∈ l := fun a ha =>
          hsubl a (mem_trimPrefixStr_subset a
            (splitOnChar_subset '=' _ val (by rw [hsp]; simp) a ha))
        refine ⟨fun hm => hnl (hsub _ hm), fun hm => hnl (hsub1 _ hm), ?_, ?_⟩
        · exact splitOnChar_not_mem '=' _ val (by rw [hsp]; simp)
        · intro _
          exact splitOnChar_not_mem '=' _ opt (by rw [hsp]; simp)
  · have hp' : hasPrefixStr (trimSpace l) "CONFIG_".toList = false := by
      simpa using hp
    by_cases hs : hasSuffixStr (trimSpace l) " is not set".toList = true
    · rw [parseConfigLine_eq_of_notset hp' hs] at h
      simp only [Option.some.injEq, Prod.mk.injEq] at h
      obtain ⟨h0, h1⟩ := h
      refine ⟨?_, by rw [← h1]; decide, by rw [← h1]; decide,
        fun hv => absurd h1 (fun he => hv he.symm)⟩
      intro hm
      rw [← h0] at hm
      exact hnl (hsubl _ (mem_trimSuffixStr_subset _ (mem_trimPrefixStr_subset _ hm)))
    · have hs' : hasSuffixStr (trimSpace l) " is not set".toList = false := by
        simpa using hs
      rw [parseConfigLine_eq_other hp' hs'] at h
      simp only [Option.some.injEq, Prod.mk.injEq] at h
      exact absurd h.1.symm hne

theorem lookup_eq_find? (cfg : Config) (k : Str) :
    Config.lookup cfg k =
      match cfg.find? (fun kv => decide (kv.1 = k)) with
      | some kv => some kv.2
      | none => none := by
  induction cfg with
  | nil => rfl
  | cons kv rest ih =>
    by_cases h : k = kv.1
    · rw [show Config.lookup (kv :: rest) k = some kv.2 by simp [Config.lookup, h]]
      rw [List.find?_cons_of_pos _ (by simp [h.symm])]
    · rw [show Config.lookup (kv :: rest) k = Config.lookup rest k by
        simp [Config.lookup, h]]
      rw [List.find?_cons_of_neg _ (by simp; exact fun he => h he.symm)]
      exact ih

theorem lookup_foldl_insert (l : List (Str × Str))
    (hnd : l.Pairwise (fun a b => a.1 ≠ b.1)) (acc : Config) (k : Str) :
    Config.lookup (l.foldl (fun m kv => Config.insert m kv.1 kv.2) acc) k =
      match l.find? (fun kv => decide (kv.1 = k)) with
      | some kv => some kv.2
      | none => Config.lookup acc k := by
  induction l generalizing acc with
  | nil => rfl
  | cons kv rest ih =>
    rcases List.pairwise_cons.mp hnd with ⟨hne, hnd'⟩
    rw [List.foldl_cons, ih hnd']
    by_cases h : kv.1 = k
    · rw [List.find?_cons_of_pos _ (by simp [h])]
      have hrest : rest.find? (fun kv' => decide (kv'.1 = k)) = none := by
        rw [List.find?_eq_none]
        intro x hx
        simp only [decide_eq_true_eq]
        exact fun he => (hne x hx) (he.trans h.symm).symm
      rw [hrest, lookup_insert, if_pos h.symm]
    · rw [List.find?_cons_of_neg _ (by simp [h])]
      cases hf : rest.find? (fun kv' => decide (kv'.1 = k)) with
      | some kv' => rfl
      | none => rw [lookup_insert, if_neg (fun he => h he.symm)]

theorem foldl_insert_canonical (l : List (Str × Str)) {acc : Config}
    (hacc : Config.Canonical acc) :
    Config.Canonical (l.foldl (fun m kv => Config.insert m kv.1 kv.2) acc) := by
  induction l generalizing acc with
  | nil => exact hacc
  | cons kv rest ih => exact ih (insert_canonical hacc kv.1 kv.2)

theorem foldl_insert_self {cfg : Config} (hc : Config.Canonical cfg) :
    cfg.foldl (fun m kv => Config.insert m kv.1 kv.2) [] = cfg := by
  apply Config.ext (foldl_insert_canonical cfg (by simp [Config.Canonical])) hc
  intro k
  rw [lookup_foldl_insert cfg (hc.imp fun h => key_ne_of_ltStr h) [] k]
  exact (lookup_eq_find? cfg k).symm

/-- The text of one serialized option line without its final newline. -/
def configLineBody (option value : Str) : Str :=
  if value = "n".toList then
    "# CONFIG_".toList ++ option ++ " is not set".toList
  else
    "CONFIG_".toList ++ option ++ "=".toList ++ value

theorem configLine_eq_body (o v : Str) :
    configLine o v = configLineBody o v ++ '\n' :: [] := by
  by_cases h : v = "n".toList
  · rw [configLine, configLineBody, if_pos h, if_pos h]
    rw [show (" is not set\n".toList : Str) = " is not set".toList ++ '\n' :: [] from
      rfl]
    simp [List.append_assoc]
  · rw [configLine, configLineBody, if_neg h, if_neg h]
    rw [show ("\n".toList : Str) = '\n' :: [] from rfl]

theorem newline_not_mem_configLineBody {o v : Str} (ho : '\n' ∉ o) (hv : '\n' ∉ v) :
    '\n' ∉ configLineBody o v := by
  intro hmem
  by_cases h : v = "n".toList
  · rw [configLineBody, if_pos h] at hmem
    rcases List.mem_append.mp hmem with hm | hm
    · rcases List.mem_append.mp hm with hm' | hm'
      · exact absurd hm' (by decide)
      · exact ho hm'
    · exact absurd hm (by decide)
  · rw [configLineBody, if_neg h] at hmem
    rcases List.mem_append.mp hmem with hm | hm
    · rcases List.mem_append.mp hm with hm' | hm'
      · rcases List.mem_append.mp hm' with hm'' | hm''
        · exact absurd hm'' (by decide)
        · exact ho hm''
      · exact absurd hm' (by decide)
    · exact hv hm

theorem splitOnChar_flatten (ls : List Str) (h : ∀ l ∈ ls, '\n' ∉ l) :
    splitOnChar '\n' (ls.map (fun l => l ++ '\n' :: [])).flatten = ls ++ [[]] := by
  induction ls with
  | nil => rfl
  | cons l rest ih =>
    rw [List.map_cons, List.flatten_cons]
    rw [show (l ++ '\n' :: []) ++ (rest.map (fun l => l ++ '\n' :: [])).flatten =
      l ++ '\n' :: (rest.map (fun l => l ++ '\n' :: [])).flatten by
        simp [List.append_assoc]]
    rw [splitOnChar_append_sep (h l (by simp)) _]
    rw [ih (fun l' hm => h l' (List.mem_cons_of_mem _ hm))]
    rfl

theorem foldlM_parse_entries (entries : List (Str × Str)) (g : Str × Str → Str)
    (hparse : ∀ kv ∈ entries, parseConfigLine (g kv) = some kv)
    (hne : ∀ kv ∈ entries, kv.1 ≠ []) (acc : Config) :
    (entries.map g).foldlM parseStep acc =
      some (entries.foldl (fun m kv => Config.insert m kv.1 kv.2) acc) := by
  induction entries generalizing acc with
  | nil => rfl
  | cons kv rest ih =>
    rw [List.map_cons, List.foldlM_cons]
    rw [show parseStep acc (g kv) = some (Config.insert acc kv.1 kv.2) by
      rw [parseStep, hparse kv (by simp)]
      simp [hne kv (by simp)]]
    show Option.bind (some (Config.insert acc kv.1 kv.2))
      (fun init => (rest.map g).foldlM parseStep init) = _
    rw [show ∀ (x : Config) (f : Config → Option Config),
      Option.bind (some x) f = f x from fun x f => rfl]
    rw [ih (fun kv' hm => hparse kv' (List.mem_cons_of_mem _ hm))
      (fun kv' hm => hne kv' (List.mem_cons_of_mem _ hm))]
    rfl

/-- The properties every entry recorded by ParseConfig satisfies. -/
def parsedEntryOK (kv : Str × Str) : Prop :=
  kv.1 ≠ [] ∧ '\n' ∉ kv.1 ∧ '\n' ∉ kv.2 ∧ '=' ∉ kv.2 ∧
    (kv.2 ≠ "n".toList → '=' ∉ kv.1)

theorem foldlM_parseStep_props (lines : List Str)
    (hnl : ∀ l ∈ lines, '\n' ∉ l) :
    ∀ acc cfg : Config, Config.Canonical acc → (∀ kv ∈ acc, parsedEntryOK kv) →
      lines.foldlM parseStep acc = some cfg →
      Config.Canonical cfg ∧ ∀ kv ∈ cfg, parsedEntryOK kv := by
  induction lines with
  | nil =>
    intro acc cfg hcan hok h
    cases h
    exact ⟨hcan, hok⟩
  | cons l rest ih =>
    intro acc cfg hcan hok h
    rw [List.foldlM_cons] at h
    cases hp : parseConfigLine l with
    | none =>
      rw [show parseStep acc l = none by rw [parseStep, hp]; rfl] at h
      exact absurd h (by simp)
    | some pv =>
      obtain ⟨opt, val⟩ := pv
      by_cases hov : opt = []
      · rw [show parseStep acc l = some acc by
          rw [parseStep, hp]; simp [hov]] at h
        exact ih (fun l' hm => hnl l' (List.mem_cons_of_mem _ hm)) acc cfg hcan hok h
      · rw [show parseStep acc l = some (Config.insert acc opt val) by
          rw [parseStep, hp]; simp [hov]] at h
        refine ih (fun l' hm => hnl l' (List.mem_cons_of_mem _ hm)) _ cfg
          (insert_canonical hcan opt val) ?_ h
        intro kv hm
        rcases mem_insert hm with rfl | hm'
        · obtain ⟨p1, p2, p3, p4⟩ := parseConfigLine_props (hnl l (by simp)) hp hov
          exact ⟨hov, p1, p2, p3, p4⟩
        · exact hok kv hm'

theorem ParseConfig_props {lines : List Str} {cfg : Config}
    (hnl : ∀ l ∈ lines, '\n' ∉ l) (h : ParseConfig lines = some cfg) :
    Config.Canonical cfg ∧ ∀ kv ∈ cfg, parsedEntryOK kv :=
  foldlM_parseStep_props lines hnl [] cfg (by simp [Config.Canonical]) (by simp) h

/-- Parsing what WriteTo wrote reconstructs the configuration exactly,
provided no recorded value ends in a unicode.IsSpace character (Go's
TrimSpace would otherwise eat it during the reparse). -/
theorem parse_after_write {lines : List Str} {cfg : Config}
    (hnl : ∀ l ∈ lines, '\n' ∉ l) (h : ParseConfig lines = some cfg)
    (hws : ∀ kv ∈ cfg, kv.2 ≠ "n".toList →
      ∀ a ∈ kv.2.getLast?, goIsSpace a = false) :
    ParseConfig (splitOnChar '\n' (Config.WriteTo cfg).out) = some cfg := by
  obtain ⟨hcan, hprops⟩ := ParseConfig_props hnl h
  have hout : (Config.WriteTo cfg).out =
      ((cfg.map (fun kv => configLineBody kv.1 kv.2)).map
        (fun l => l ++ '\n' :: [])).flatten := by
    rw [WriteTo_eq hcan]
    show (cfg.map (fun kv => configLine kv.1 kv.2)).flatten = _
    rw [List.map_map]
    congr 1
    refine List.map_congr_left ?_
    intro kv hm
    simp only [Function.comp]
    exact configLine_eq_body kv.1 kv.2
  have hbodynl : ∀ b ∈ cfg.map (fun kv => configLineBody kv.1 kv.2), '\n' ∉ b := by
    intro b hb
    rw [List.mem_map] at hb
    obtain ⟨kv, hkv, rfl⟩ := hb
    exact newline_not_mem_configLineBody (hprops kv hkv).2.1 (hprops kv hkv).2.2.1
  rw [hout, splitOnChar_flatten _ hbodynl]
  rw [ParseConfig, List.foldlM_append]
  have hentries : (cfg.map (fun kv => configLineBody kv.1 kv.2)).foldlM
      parseStep [] = some cfg := by
    rw [foldlM_parse_entries cfg (fun kv => configLineBody kv.1 kv.2) ?_ ?_ []]
    · rw [foldl_insert_self hcan]
    · intro kv hm
      show parseConfigLine (configLineBody kv.1 kv.2) = some kv
      by_cases hv : kv.2 = "n".toList
      · rw [show configLineBody kv.1 kv.2 =
          "# CONFIG_".toList ++ kv.1 ++ " is not set".toList by
            rw [configLineBody, if_pos hv]]
        rw [show (kv : Str × Str) = (kv.1, kv.2) from rfl, hv]
        exact parse_notset_line kv.1
      · rw [show configLineBody kv.1 kv.2 =
          "CONFIG_".toList ++ kv.1 ++ "=".toList ++ kv.2 by
            rw [configLineBody, if_neg hv]]
        rw [show (kv : Str × Str) = (kv.1, kv.2) from rfl]
        exact parse_set_line kv.1 kv.2 ((hprops kv hm).2.2.2.2 hv)
          (hprops kv hm).2.2.2.1 (hws kv hm hv)
    · exact fun kv hm => (hprops kv hm).1
  rw [hentries]
  show Option.bind (some cfg) (fun init => List.foldlM parseStep init [[]]) = some cfg
  rw [show ∀ (x : Config) (f : Config → Option Config),
    Option.bind (some x) f = f x from fun x f => rfl]
  rw [List.foldlM_cons]
  rw [show parseStep cfg [] = some cfg by
    rw [parseStep, show parseConfigLine ([] : Str) = some ([], []) from rfl]
    rfl]
  rfl

theorem Equal_refl {cfg : Config} (hc : Config.Canonical cfg) :
    Config.Equal cfg cfg = true := by
  have h : Config.containedIn cfg cfg = true := by
    rw [Config.containedIn, List.all_eq_true]
    intro kv hm
    rw [lookup_eq_some_of_mem hc hm]
    simp
  rw [Config.Equal, h]
  rfl

theorem diffConfig_self {A : Config} (hA : Config.Canonical A) :
    DiffConfig A A = ⟨[], [], []⟩ := by
  have h1 : A.filterMap (inOldFn A) = [] := by
    rw [List.filterMap_eq_nil_iff]
    intro kv hm
    rw [inOldFn, lookup_eq_some_of_mem hA hm]
    rfl
  have h2 : A.filterMap (changesFn A) = [] := by
    rw [List.filterMap_eq_nil_iff]
    intro kv hm
    rw [changesFn, lookup_eq_some_of_mem hA hm]
    simp
  rw [DiffConfig, h1, h2]
  rfl

theorem diffConfig_sorted {A B : Config} (hA : Config.Canonical A)
    (hB : Config.Canonical B) :
    (DiffConfig A B).InOld.Pairwise (fun x y => ltStr x.Opt y.Opt = true) ∧
    (DiffConfig A B).Changes.Pairwise (fun x y => ltStr x.Opt y.Opt = true) ∧
    (DiffConfig A B).InNew.Pairwise (fun x y => ltStr x.Opt y.Opt = true) := by
  refine ⟨?_, ?_, ?_⟩
  · rw [diffConfig_inOld B hA]
    exact pairwise_filterMap_key _ _ (fun kv r h => inOldFn_key h) hA
  · rw [diffConfig_changes B hA]
    exact pairwise_filterMap_key _ _ (fun kv r h => changesFn_key h) hA
  · rw [diffConfig_inNew A hB]
    exact pairwise_filterMap_key _ _ (fun kv r h => inOldFn_key h) hB

theorem diffConfig_changes_vals_ne {A B : Config} (hA : Config.Canonical A) :
    ∀ cc ∈ (DiffConfig A B).Changes, cc.OldVal ≠ cc.NewVal := by
  intro cc hm
  rw [diffConfig_changes B hA] at hm
  exact ((mem_filterMap_changesFn hA).mp hm).2.2

theorem diffConfig_changes_swap {A B : Config} (hA : Config.Canonical A)
    (hB : Config.Canonical B) :
    (DiffConfig B A).Changes =
      (DiffConfig A B).Changes.map
        (fun cc => ⟨cc.Opt, cc.NewVal, cc.OldVal⟩) := by
  rw [diffConfig_changes A hB, diffConfig_changes B hA]
  refine eq_of_sorted_mem_iff (fun cc : ConfigChange => cc.Opt)
    (pairwise_filterMap_key _ _ (fun kv r h => changesFn_key h) hB)
    (List.pairwise_map.mpr
      (pairwise_filterMap_key (fun cc : ConfigChange => cc.Opt) _
        (fun kv r h => changesFn_key h) hA))
    ?_
  intro cc
  rw [mem_filterMap_changesFn hB, List.mem_map]
  constructor
  · rintro ⟨hBv, hAv, hne⟩
    refine ⟨⟨cc.Opt, cc.NewVal, cc.OldVal⟩, ?_, rfl⟩
    exact (mem_filterMap_changesFn hA).mpr ⟨hAv, hBv, fun he => hne he.symm⟩
  · rintro ⟨cc', hm', rfl⟩
    obtain ⟨hAv, hBv, hne⟩ := (mem_filterMap_changesFn hA).mp hm'
    exact ⟨hBv, hAv, fun he => hne he.symm⟩

/-- C7 (amended): the ApplyDiff error taxonomy, with phase priority.  An
InvalidOldValue error occurs exactly when some InOld entry's option is
absent from cfg.  When every InOld entry is present, the first Changes
entry (in sequence order) whose current value in cfg differs from its
recorded old value determines the error: InvalidChange when the option is
absent, MismatchedChange carrying the actual observed value when present
with a different value.  When every InOld entry is present and every
Changes entry matches, an InvalidNewValue error occurs exactly when some
InNew entry's option is present in cfg.  A failing call returns only the
error, never a configuration (Except.error carries no Config), and cfg is
untouched (the code mutates only its fresh working copy). -/
theorem applyDiff_errors (cfg : Config) (d : ConfigDiff) :
    ((∃ cv, Config.ApplyDiff cfg d = .error (.invalidOldValue cv)) ↔
      ∃ cv ∈ d.InOld, Config.lookup cfg cv.Opt = none) ∧
    ((∃ cc, Config.ApplyDiff cfg d = .error (.invalidChange cc)) ↔
      (∀ cv ∈ d.InOld, (Config.lookup cfg cv.Opt).isSome = true) ∧
      ∃ cc, d.Changes.find?
          (fun cc => decide (Config.lookup cfg cc.Opt ≠ some cc.OldVal)) = some cc ∧
        Config.lookup cfg cc.Opt = none) ∧
    ((∃ cc a, Config.ApplyDiff cfg d = .error (.mismatchedChange cc a)) ↔
      (∀ cv ∈ d.InOld, (Config.lookup cfg cv.Opt).isSome = true) ∧
      ∃ cc a, d.Changes.find?
          (fun cc => decide (Config.lookup cfg cc.Opt ≠ some cc.OldVal)) = some cc ∧
        Config.lookup cfg cc.Opt = some a ∧ a ≠ cc.OldVal) ∧
    (∀ cc a, Config.ApplyDiff cfg d = .error (.mismatchedChange cc a) →
      cc ∈ d.Changes ∧ Config.lookup cfg cc.Opt = some a ∧ a ≠ cc.OldVal) ∧
    ((∃ cv, Config.ApplyDiff cfg d = .error (.invalidNewValue cv)) ↔
      (∀ cv ∈ d.InOld, (Config.lookup cfg cv.Opt).isSome = true) ∧
      (∀ cc ∈ d.Changes, Config.lookup cfg cc.Opt = some cc.OldVal) ∧
      ∃ cv ∈ d.InNew, (Config.lookup cfg cv.Opt).isSome = true) := by
  cases h1 : d.InOld.find? (fun cv => (Config.lookup cfg cv.Opt).isNone) with
  | some cv0 =>
    have hrun : Config.ApplyDiff cfg d = .error (.invalidOldValue cv0) := by
      rw [applyDiff_run, h1]
    have hmem := List.mem_of_find?_eq_some h1
    have hnone : Config.lookup cfg cv0.Opt = none := by
      have := List.find?_some h1
      simpa using this
    have habs : ¬(∀ cv ∈ d.InOld, (Config.lookup cfg cv.Opt).isSome = true) := by
      intro hall
      have := hall cv0 hmem
      rw [hnone] at this
      simp at this
    refine ⟨⟨fun _ => ⟨cv0, hmem, hnone⟩, fun _ => ⟨cv0, hrun⟩⟩, ?_, ?_, ?_, ?_⟩
    · constructor
      · rintro ⟨cc, hcc⟩
        rw [hrun] at hcc
        simp at hcc
      · rintro ⟨hall, _⟩
        exact absurd hall habs
    · constructor
      · rintro ⟨cc, a, hcc⟩
        rw [hrun] at hcc
        simp at hcc
      · rintro ⟨hall, _⟩
        exact absurd hall habs
    · intro cc a hcc
      rw [hrun] at hcc
      simp at hcc
    · constructor
      · rintro ⟨cv, hcv⟩
        rw [hrun] at hcv
        simp at hcv
      · rintro ⟨hall, _⟩
        exact absurd hall habs
  | none =>
    have hall_io : ∀ cv ∈ d.InOld, (Config.lookup cfg cv.Opt).isSome = true := by
      intro cv hm
      have hf := List.find?_eq_none.mp h1 cv hm
      cases hl : Config.lookup cfg cv.Opt with
      | none => rw [hl] at hf; simp at hf
      | some v => rfl
    have hno_io : ¬∃ cv ∈ d.InOld, Config.lookup cfg cv.Opt = none := by
      rintro ⟨cv, hm, hn⟩
      have := hall_io cv hm
      rw [hn] at this
      simp at this
    cases h2 : d.Changes.find?
        (fun cc => decide (Config.lookup cfg cc.Opt ≠ some cc.OldVal)) with
    | some cc0 =>
      have hmem2 := List.mem_of_find?_eq_some h2
      have hne2 : Config.lookup cfg cc0.Opt ≠ some cc0.OldVal := by
        have := List.find?_some h2
        simpa using this
      cases hl : Config.lookup cfg cc0.Opt with
      | none =>
        have hrun : Config.ApplyDiff cfg d = .error (.invalidChange cc0) := by
          rw [applyDiff_run, h1, h2]
          show (match Config.lookup cfg cc0.Opt with
            | none => Except.error (ApplyError.invalidChange cc0)
            | some oldval =>
              Except.error (ApplyError.mismatchedChange cc0 oldval)) =
            Except.error (ApplyError.invalidChange cc0)
          rw [hl]
        refine ⟨?_, ?_, ?_, ?_, ?_⟩
        · constructor
          · rintro ⟨cv, hcv⟩
            rw [hrun] at hcv
            simp at hcv
          · intro h
            exact absurd h hno_io
        · exact ⟨fun _ => ⟨hall_io, cc0, rfl, hl⟩, fun _ => ⟨cc0, hrun⟩⟩
        · constructor
          · rintro ⟨cc, a, hcc⟩
            rw [hrun] at hcc
            simp at hcc
          · rintro ⟨_, cc, a, hfind, hsome, _⟩
            rw [Option.some.injEq] at hfind
            rw [← hfind, hl] at hsome
            simp at hsome
        · intro cc a hcc
          rw [hrun] at hcc
          simp at hcc
        · constructor
          · rintro ⟨cv, hcv⟩
            rw [hrun] at hcv
            simp at hcv
          · rintro ⟨_, hallch, _⟩
            have := hallch cc0 hmem2
            rw [hl] at this
            simp at this
      | some a0 =>
        have hne0 : a0 ≠ cc0.OldVal := by
          intro he
          exact hne2 (by rw [hl, he])
        have hrun : Config.ApplyDiff cfg d =
            .error (.mismatchedChange cc0 a0) := by
          rw [applyDiff_run, h1, h2]
          show (match Config.lookup cfg cc0.Opt with
            | none => Except.error (ApplyError.invalidChange cc0)
            | some oldval =>
              Except.error (ApplyError.mismatchedChange cc0 oldval)) =
            Except.error (ApplyError.mismatchedChange cc0 a0)
          rw [hl]
        refine ⟨?_, ?_, ?_, ?_, ?_⟩
        · constructor
          · rintro ⟨cv, hcv⟩
            rw [hrun] at hcv
            simp at hcv
          · intro h
            exact absurd h hno_io
        · constructor
          · rintro ⟨cc, hcc⟩
            rw [hrun] at hcc
            simp at hcc
          · rintro ⟨_, cc, hfind, hnone'⟩
            rw [Option.some.injEq] at hfind
            rw [← hfind, hl] at hnone'
            simp at hnone'
        · exact ⟨fun _ => ⟨hall_io, cc0, a0, rfl, hl, hne0⟩,
            fun _ => ⟨cc0, a0, hrun⟩⟩
        · intro cc a hcc
          rw [hrun] at hcc
          simp only [Except.error.injEq, ApplyError.mismatchedChange.injEq] at hcc
          obtain ⟨hc1, hc2⟩ := hcc
          rw [← hc1, ← hc2]
          exact ⟨hmem2, hl, hne0⟩
        · constructor
          · rintro ⟨cv, hcv⟩
            rw [hrun] at hcv
            simp at hcv
          · rintro ⟨_, hallch, _⟩
            exact absurd (hallch cc0 hmem2) hne2
    | none =>
      have hall_ch : ∀ cc ∈ d.Changes,
          Config.lookup cfg cc.Opt = some cc.OldVal := by
        intro cc hm
        have hf := List.find?_eq_none.mp h2 cc hm
        simpa using hf
      cases h3 : d.InNew.find? (fun cv => (Config.lookup cfg cv.Opt).isSome) with
      | some cv0 =>
        have hrun : Config.ApplyDiff cfg d = .error (.invalidNewValue cv0) := by
          rw [applyDiff_run, h1, h2, h3]
        have hmem3 := List.mem_of_find?_eq_some h3
        have hsome3 : (Config.lookup cfg cv0.Opt).isSome = true := by
          have := List.find?_some h3
          simpa using this
        refine ⟨?_, ?_, ?_, ?_, ?_⟩
        · constructor
          · rintro ⟨cv, hcv⟩
            rw [hrun] at hcv
            simp at hcv
          · intro h
            exact absurd h hno_io
        · constructor
          · rintro ⟨cc, hcc⟩
            rw [hrun] at hcc
            simp at hcc
          · rintro ⟨_, cc, hfind, _⟩
            simp at hfind
        · constructor
          · rintro ⟨cc, a, hcc⟩
            rw [hrun] at hcc
            simp at hcc
          · rintro ⟨_, cc, a, hfind, _⟩
            simp at hfind
        · intro cc a hcc
          rw [hrun] at hcc
          simp at hcc
        · exact ⟨fun _ => ⟨hall_io, hall_ch, cv0, hmem3, hsome3⟩,
            fun _ => ⟨cv0, hrun⟩⟩
      | none =>
        have hrun : Config.ApplyDiff cfg d = .ok (applyDiffResult cfg d) := by
          rw [applyDiff_run, h1, h2, h3]
        have hno_in : ¬∃ cv ∈ d.InNew,
            (Config.lookup cfg cv.Opt).isSome = true := by
          rintro ⟨cv, hm, hs⟩
          exact absurd hs (List.find?_eq_none.mp h3 cv hm)
        refine ⟨?_, ?_, ?_, ?_, ?_⟩
        · constructor
          · rintro ⟨cv, hcv⟩
            rw [hrun] at hcv
            simp at hcv
          · intro h
            exact absurd h hno_io
        · constructor
          · rintro ⟨cc, hcc⟩
            rw [hrun] at hcc
            simp at hcc
          · rintro ⟨_, cc, hfind, _⟩
            simp at hfind
        · constructor
          · rintro ⟨cc, a, hcc⟩
            rw [hrun] at hcc
            simp at hcc
          · rintro ⟨_, cc, a, hfind, _⟩
            simp at hfind
        · intro cc a hcc
          rw [hrun] at hcc
          simp at hcc
        · constructor
          · rintro ⟨cv, hcv⟩
            rw [hrun] at hcv
            simp at hcv
          · rintro ⟨_, _, h⟩
            exact absurd h hno_in

/-! ### The claims -/

/-- C1: for all configurations A and B (canonical association lists, as every
Go map is), applying DiffConfig A B to A succeeds and the resulting
configuration is equal to B as a key/value mapping (Config.Equal). -/
theorem diff_then_apply (A B : Config) (hA : Config.Canonical A)
    (hB : Config.Canonical B) :
    ∃ Y, Config.ApplyDiff A (DiffConfig A B) = Except.ok Y ∧
      Config.Equal Y B = true :=
  ⟨B, applyDiff_diffConfig hA hB, Equal_refl hB⟩

theorem diff_then_apply_witness :
    Config.Canonical [("A".toList, "x".toList)] ∧
    Config.Canonical [("B".toList, "y".toList)] ∧
    ∃ Y, Config.ApplyDiff [("A".toList, "x".toList)]
        (DiffConfig [("A".toList, "x".toList)] [("B".toList, "y".toList)]) =
        Except.ok Y ∧
      Config.Equal Y [("B".toList, "y".toList)] = true :=
  ⟨by decide, by decide, diff_then_apply _ _ (by decide) (by decide)⟩

/-- C2: for every configuration A and every diff D that DiffConfig could have
produced from A (D = DiffConfig A B for some B), ApplyDiff A D succeeds with
a result Y, and DiffConfig A Y is structurally equal to D. -/
theorem apply_then_diff (A B : Config) (D : ConfigDiff)
    (hA : Config.Canonical A) (hB : Config.Canonical B)
    (hD : DiffConfig A B = D) :
    ∃ Y, Config.ApplyDiff A D = Except.ok Y ∧ DiffConfig A Y = D := by
  subst hD
  exact ⟨B, applyDiff_diffConfig hA hB, rfl⟩

theorem apply_then_diff_witness :
    Config.Canonical [("A".toList, "x".toList)] ∧
    Config.Canonical ([] : Config) ∧
    DiffConfig [("A".toList, "x".toList)] ([] : Config) =
      ⟨[⟨"A".toList, "x".toList⟩], [], []⟩ ∧
    ∃ Y, Config.ApplyDiff [("A".toList, "x".toList)]
        ⟨[⟨"A".toList, "x".toList⟩], [], []⟩ = Except.ok Y ∧
      DiffConfig [("A".toList, "x".toList)] Y =
        ⟨[⟨"A".toList, "x".toList⟩], [], []⟩ :=
  ⟨by decide, by decide, by decide,
    apply_then_diff [("A".toList, "x".toList)] ([] : Config)
      ⟨[⟨"A".toList, "x".toList⟩], [], []⟩
      (by decide) (by decide) (by decide)⟩

/-- C3: DiffConfig is symmetric: DiffConfig A B's InOld is DiffConfig B A's
InNew and vice versa, and the change record at each index i of
DiffConfig B A is the record at index i of DiffConfig A B with its old and
new values swapped (same option-name order in both directions). -/
theorem diffConfig_symmetry (A B : Config) (hA : Config.Canonical A)
    (hB : Config.Canonical B) :
    (DiffConfig A B).InOld = (DiffConfig B A).InNew ∧
    (DiffConfig A B).InNew = (DiffConfig B A).InOld ∧
    ∀ i (h : i < (DiffConfig A B).Changes.length),
      ∃ h2 : i < (DiffConfig B A).Changes.length,
        (DiffConfig B A).Changes[i] =
          ⟨((DiffConfig A B).Changes[i]).Opt,
           ((DiffConfig A B).Changes[i]).NewVal,
           ((DiffConfig A B).Changes[i]).OldVal⟩ := by
  refine ⟨rfl, rfl, ?_⟩
  intro i h
  have hsw := diffConfig_changes_swap hA hB
  have hlen : (DiffConfig B A).Changes.length =
      (DiffConfig A B).Changes.length := by
    rw [hsw, List.length_map]
  refine ⟨by rw [hlen]; exact h, ?_⟩
  simp only [hsw, List.getElem_map]

theorem diffConfig_symmetry_witness :
    Config.Canonical [("A".toList, "x".toList)] ∧
    Config.Canonical [("A".toList, "y".toList)] ∧
    ((DiffConfig [("A".toList, "x".toList)] [("A".toList, "y".toList)]).InOld =
      (DiffConfig [("A".toList, "y".toList)] [("A".toList, "x".toList)]).InNew ∧
    (DiffConfig [("A".toList, "x".toList)] [("A".toList, "y".toList)]).InNew =
      (DiffConfig [("A".toList, "y".toList)] [("A".toList, "x".toList)]).InOld ∧
    ∀ i (h : i < (DiffConfig [("A".toList, "x".toList)]
        [("A".toList, "y".toList)]).Changes.length),
      ∃ h2 : i < (DiffConfig [("A".toList, "y".toList)]
          [("A".toList, "x".toList)]).Changes.length,
        (DiffConfig [("A".toList, "y".toList)]
            [("A".toList, "x".toList)]).Changes[i] =
          ⟨((DiffConfig [("A".toList, "x".toList)]
              [("A".toList, "y".toList)]).Changes[i]).Opt,
           ((DiffConfig [("A".toList, "x".toList)]
              [("A".toList, "y".toList)]).Changes[i]).NewVal,
           ((DiffConfig [("A".toList, "x".toList)]
              [("A".toList, "y".toList)]).Changes[i]).OldVal⟩) :=
  ⟨by decide, by decide, diffConfig_symmetry _ _ (by decide) (by decide)⟩

theorem parse_set_line_extra_witness :
    ('=' ∉ "A".toList) ∧ ('=' ∉ "b".toList) ∧
    parseConfigLine ("CONFIG_".toList ++ "A".toList ++ "=".toList ++
        "b".toList ++ "=".toList ++ "c".toList) =
      some ("A".toList, "b".toList) :=
  ⟨by decide, by decide, parse_set_line_extra _ _ _ (by decide) (by decide)⟩

/-- C4 fails as stated: on the line CONFIG_A=b=c the parser keeps only "b"
as the value, not the complete "b=c" (strings.Split on every '=' and
tokens[1], rather than a split on the first '=' only). -/
theorem parse_first_eq_cex :
    parseConfigLine "CONFIG_A=b=c".toList = some ("A".toList, "b".toList) ∧
    ("A".toList, "b".toList) ≠ ("A".toList, "b=c".toList) :=
  ⟨by decide, by decide⟩

/-- C5 (amended): every line of the exact form "# CONFIG_<name> is not set"
parses to the entry (name, "n"), but that form is not the only one that
produces an entry: any line ending in " is not set" whose trim does not
start with "CONFIG_" yields (line minus the suffix, minus an optional
leading "# CONFIG_", value "n"), and ParseConfig records it whenever that
name is nonempty — as the second conjunct shows on "# X2 is not set". -/
theorem notset_line_parsing :
    (∀ name : Str,
      parseConfigLine ("# CONFIG_".toList ++ name ++ " is not set".toList) =
        some (name, "n".toList)) ∧
    ParseConfig ["# X2 is not set".toList] =
      some [("# X2".toList, "n".toList)] :=
  ⟨fun name => parse_notset_line name, by decide⟩

/-- C5 fails as stated: the line "# A is not set" ends in " is not set" and
does not begin with "# CONFIG_", yet the parser produces the mapping entry
("# A", "n") rather than no entry. -/
theorem notset_line_cex :
    hasSuffixStr ("# A is not set".toList) " is not set".toList = true ∧
    hasPrefixStr ("# A is not set".toList) "# CONFIG_".toList = false ∧
    ParseConfig ["# A is not set".toList] =
      some [("# A".toList, "n".toList)] ∧
    ("# A".toList : Str) ≠ [] :=
  ⟨by decide, by decide, by decide, by decide⟩

/-- C6 (amended): for every scanner input (lines without newline characters)
that parses successfully, parsing the text WriteTo serializes yields exactly
the configuration of the first parse, provided no parsed value other than
"n" ends in a unicode.IsSpace character (goIsSpace, Go's White_Space
table).  Without that proviso the round trip fails: the parser truncates a
value at the second '=' of a line, which can leave a trailing white-space
character that TrimSpace then removes on the reparse. -/
theorem parse_serialize_parse (lines : List Str) (cfg : Config)
    (h1 : ∀ l ∈ lines, '\n' ∉ l) (h2 : ParseConfig lines = some cfg)
    (h3 : ∀ kv ∈ cfg, kv.2 ≠ "n".toList →
      ∀ a ∈ kv.2.getLast?, goIsSpace a = false) :
    ParseConfig (splitOnChar '\n' (Config.WriteTo cfg).out) = some cfg :=
  parse_after_write h1 h2 h3

theorem parse_serialize_parse_witness :
    (∀ l ∈ ["# CONFIG_X is not set".toList, "CONFIG_Y=y".toList], '\n' ∉ l) ∧
    ParseConfig ["# CONFIG_X is not set".toList, "CONFIG_Y=y".toList] =
      some [("X".toList, "n".toList), ("Y".toList, "y".toList)] ∧
    (∀ kv ∈ [("X".toList, "n".toList), ("Y".toList, "y".toList)],
      kv.2 ≠ "n".toList → ∀ a ∈ kv.2.getLast?, goIsSpace a = false) ∧
    ParseConfig (splitOnChar '\n'
        (Config.WriteTo [("X".toList, "n".toList),
          ("Y".toList, "y".toList)]).out) =
      some [("X".toList, "n".toList), ("Y".toList, "y".toList)] :=
  ⟨by decide, by decide, by decide,
    parse_serialize_parse
      ["# CONFIG_X is not set".toList, "CONFIG_Y=y".toList]
      [("X".toList, "n".toList), ("Y".toList, "y".toList)]
      (by decide) (by decide) (by decide)⟩

/-- C6 fails as stated: the well-formed line CONFIG_A="b = c" parses to the
entry (A, "b followed by a space) — the value is cut at the second '=' —
serializes to CONFIG_A="b followed by a space, and reparses to (A, "b):
the reparse is not Equal to the first parse. -/
theorem parse_serialize_parse_cex :
    ParseConfig ["CONFIG_A=\"b = c\"".toList] =
      some [("A".toList, "\"b ".toList)] ∧
    ParseConfig (splitOnChar '\n'
        (Config.WriteTo [("A".toList, "\"b ".toList)]).out) =
      some [("A".toList, "\"b".toList)] ∧
    Config.Equal [("A".toList, "\"b".toList)] [("A".toList, "\"b ".toList)] =
      false :=
  ⟨by decide, by decide, by decide⟩

/-- C7 fails as stated: in this diff a Changes entry's option ("B") is
absent from the empty configuration, so the claim demands an InvalidChange
failure, but the InOld phase runs first and the call fails with
InvalidOldValue instead. -/
theorem applyDiff_error_priority_cex :
    (⟨"B".toList, "y".toList, "z".toList⟩ : ConfigChange) ∈
      (⟨[⟨"A".toList, "x".toList⟩], [⟨"B".toList, "y".toList, "z".toList⟩],
        []⟩ : ConfigDiff).Changes ∧
    Config.lookup [] "B".toList = none ∧
    Config.ApplyDiff []
        ⟨[⟨"A".toList, "x".toList⟩], [⟨"B".toList, "y".toList, "z".toList⟩],
          []⟩ =
      Except.error (ApplyError.invalidOldValue ⟨"A".toList, "x".toList⟩) ∧
    (Except.error (ApplyError.invalidOldValue ⟨"A".toList, "x".toList⟩) :
        Except ApplyError Config) ≠
      Except.error (ApplyError.invalidChange
        ⟨"B".toList, "y".toList, "z".toList⟩) :=
  ⟨by decide, rfl, by decide, by decide⟩

/-- C8: every DiffConfig result has its three sequences strictly sorted by
option name (ascending lexicographic order), every change record has
distinct old and new values, and DiffConfig A A is entirely empty. -/
theorem diffConfig_invariants (A B : Config) (hA : Config.Canonical A)
    (hB : Config.Canonical B) :
    (DiffConfig A B).InOld.Pairwise (fun x y => ltStr x.Opt y.Opt = true) ∧
    (DiffConfig A B).Changes.Pairwise (fun x y => ltStr x.Opt y.Opt = true) ∧
    (DiffConfig A B).InNew.Pairwise (fun x y => ltStr x.Opt y.Opt = true) ∧
    (∀ cc ∈ (DiffConfig A B).Changes, cc.OldVal ≠ cc.NewVal) ∧
    DiffConfig A A = ⟨[], [], []⟩ := by
  obtain ⟨s1, s2, s3⟩ := diffConfig_sorted hA hB
  exact ⟨s1, s2, s3, diffConfig_changes_vals_ne hA, diffConfig_self hA⟩

theorem diffConfig_invariants_witness :
    Config.Canonical [("A".toList, "x".toList), ("B".toList, "y".toList)] ∧
    Config.Canonical [("B".toList, "z".toList)] ∧
    ((DiffConfig [("A".toList, "x".toList), ("B".toList, "y".toList)]
        [("B".toList, "z".toList)]).InOld.Pairwise
          (fun x y => ltStr x.Opt y.Opt = true) ∧
    (DiffConfig [("A".toList, "x".toList), ("B".toList, "y".toList)]
        [("B".toList, "z".toList)]).Changes.Pairwise
          (fun x y => ltStr x.Opt y.Opt = true) ∧
    (DiffConfig [("A".toList, "x".toList), ("B".toList, "y".toList)]
        [("B".toList, "z".toList)]).InNew.Pairwise
          (fun x y => ltStr x.Opt y.Opt = true) ∧
    (∀ cc ∈ (DiffConfig [("A".toList, "x".toList), ("B".toList, "y".toList)]
        [("B".toList, "z".toList)]).Changes, cc.OldVal ≠ cc.NewVal) ∧
    DiffConfig [("A".toList, "x".toList), ("B".toList, "y".toList)]
        [("A".toList, "x".toList), ("B".toList, "y".toList)] = ⟨[], [], []⟩) :=
  ⟨by decide, by decide, diffConfig_invariants _ _ (by decide) (by decide)⟩

/-- C9: WriteTo emits exactly one line per option, in the (ascending)
canonical entry order: a "# CONFIG_<name> is not set" line for value "n"
and a "CONFIG_<name>=<value>" line otherwise, each newline-terminated; its
byte count N is the UTF-8 length of the output, and the empty (or nil)
configuration writes zero bytes.  (The in-memory writer cannot fail, so the
sticky error of the Go writer is always nil.) -/
theorem writeTo_canonical_output (cfg : Config) (hc : Config.Canonical cfg) :
    (Config.WriteTo cfg).out =
      (cfg.map (fun kv =>
        if kv.2 = "n".toList then
          "# CONFIG_".toList ++ kv.1 ++ " is not set\n".toList
        else
          "CONFIG_".toList ++ kv.1 ++ "=".toList ++ kv.2 ++ "\n".toList)).flatten ∧
    (Config.WriteTo cfg).N = utf8Len (Config.WriteTo cfg).out ∧
    (Config.WriteTo ([] : Config)).out = [] ∧
    (Config.WriteTo ([] : Config)).N = 0 := by
  refine ⟨?_, ?_, rfl, rfl⟩
  · rw [WriteTo_eq hc]
    rfl
  · rw [WriteTo_eq hc]

theorem writeTo_canonical_output_witness :
    Config.Canonical [("A".toList, "n".toList)] ∧
    ((Config.WriteTo [("A".toList, "n".toList)]).out =
      ([("A".toList, "n".toList)].map (fun kv =>
        if kv.2 = "n".toList then
          "# CONFIG_".toList ++ kv.1 ++ " is not set\n".toList
        else
          "CONFIG_".toList ++ kv.1 ++ "=".toList ++ kv.2 ++ "\n".toList)).flatten ∧
    (Config.WriteTo [("A".toList, "n".toList)]).N =
      utf8Len (Config.WriteTo [("A".toList, "n".toList)]).out ∧
    (Config.WriteTo ([] : Config)).out = [] ∧
    (Config.WriteTo ([] : Config)).N = 0) :=
  ⟨by decide, writeTo_canonical_output _ (by decide)⟩

/-- C10: a line that starts with CONFIG_ but contains no '=' makes the
per-line parse fail: the split on '=' has length 1, so the Go code's
tokens[1] is an out-of-bounds access (modelled here by parseConfigLine
returning none). -/
theorem parseConfigLine_missing_eq :
    hasPrefixStr (trimSpace "CONFIG_FOO".toList) "CONFIG_".toList = true ∧
    (splitOnChar '=' (trimPrefixStr (trimSpace "CONFIG_FOO".toList)
      "CONFIG_".toList)).length = 1 ∧
    parseConfigLine "CONFIG_FOO".toList = none :=
  ⟨by decide, by decide, by decide⟩
